import Mathlib

/-!
Verification development for the oshean repository's line-editing engine
(src/linenoise.c) against its natural-language specification.

Bytes and code points are modelled as `Nat`; C `int` arguments that can be
negative are modelled as `Int`.  The edit buffer of `struct current` is
modelled as the full backing array (a `List Nat` of length `bufmax`), so
that null-termination of the buffer is a real, falsifiable property.
-/

namespace Oshean

/-! ## UTF-8 primitives

The repository includes `include/utf8.h` and calls `utf8_getchars`,
`utf8_tounicode`, `utf8_charlen`, `utf8_strlen` and `utf8_index`, but the
corresponding `utf8.c` implementation file is not among the provided
sources.  These functions are therefore modelled from the spec. -/

/-- Byte `i` of a buffer; bytes past the end of the modelled region read
as 0, matching a zero-initialised C array tail. -/
def byteAt (s : List Nat) (i : Nat) : Nat := s.getD i 0

/-- Modelled from the spec: `utf8_getchars` from the missing `utf8.c`.
Standard UTF-8 encoding of a code point into 1-3 bytes (the spec's input
decoder supports sequences of length 2-3 plus single bytes). -/
def utf8_getchars (c : Nat) : List Nat :=
  if c ≤ 0x7f then [c]
  else if c ≤ 0x7ff then
    [0xc0 ||| (c >>> 6), 0x80 ||| (c &&& 0x3f)]
  else
    [0xe0 ||| (c >>> 12), 0x80 ||| ((c >>> 6) &&& 0x3f), 0x80 ||| (c &&& 0x3f)]

/-- Modelled from the spec: `utf8_tounicode` from the missing `utf8.c`.
Decodes one UTF-8 character from the front of `s`, returning the number
of bytes consumed and the code point.  A malformed sequence falls back to
consuming a single byte. -/
def utf8_tounicode (s : List Nat) : Nat × Nat :=
  if byteAt s 0 < 0xc0 then (1, byteAt s 0)
  else if byteAt s 0 < 0xe0 then
    if byteAt s 1 &&& 0xc0 = 0x80 then
      (2, ((byteAt s 0 &&& 0x3f) <<< 6) ||| (byteAt s 1 &&& 0x7f))
    else (1, byteAt s 0)
  else if byteAt s 0 < 0xf0 then
    if byteAt s 1 &&& 0xc0 = 0x80 ∧ byteAt s 2 &&& 0xc0 = 0x80 then
      (3, ((byteAt s 0 &&& 0x1f) <<< 12) ||| ((byteAt s 1 &&& 0x7f) <<< 6) ||| (byteAt s 2 &&& 0x7f))
    else (1, byteAt s 0)
  else (1, byteAt s 0)

/-- Modelled from the spec: `utf8_charlen` from the missing `utf8.c`.
Sequence length promised by a UTF-8 lead byte (0 for an invalid one). -/
def utf8_charlen (c : Nat) : Nat :=
  if c &&& 0x80 = 0 then 1
  else if c &&& 0xe0 = 0xc0 then 2
  else if c &&& 0xf0 = 0xe0 then 3
  else if c &&& 0xf8 = 0xf0 then 4
  else 0

/-- Model of C `strlen` on a byte list: number of bytes before the first 0. -/
def strlenM (s : List Nat) : Nat := (s.takeWhile (· ≠ 0)).length

theorem utf8_tounicode_fst_pos (s : List Nat) : 1 ≤ (utf8_tounicode s).1 := by
  unfold utf8_tounicode
  repeat' split
  all_goals dsimp only
  all_goals omega

/-- Modelled from the spec: the byte-counting loop of `utf8_strlen`;
consumes `bytelen` bytes, counting decoded characters.  The first
argument is recursion fuel: each iteration consumes at least one byte,
so fuel `bytelen` makes the function total while keeping it reducible. -/
def utf8_strlen_fuel : Nat → List Nat → Nat → Nat
  | 0, _, _ => 0
  | fuel + 1, s, bytelen =>
    if bytelen = 0 then 0
    else
      let l := (utf8_tounicode s).1
      1 + utf8_strlen_fuel fuel (s.drop l) (bytelen - l)

/-- Modelled from the spec: `utf8_strlen` from the missing `utf8.c`.
Number of UTF-8 characters in the first `bytelen` bytes; a negative
`bytelen` means `strlen` is used first, as the C callers rely on. -/
def utf8_strlen (s : List Nat) (bytelen : Int) : Nat :=
  utf8_strlen_fuel (if bytelen < 0 then strlenM s else bytelen.toNat) s
    (if bytelen < 0 then strlenM s else bytelen.toNat)

/-- Modelled from the spec: `utf8_index` from the missing `utf8.c`.
Byte offset of the character with index `k`. -/
def utf8_index (s : List Nat) : Nat → Nat
  | 0 => 0
  | k + 1 =>
    let l := (utf8_tounicode s).1
    l + utf8_index (s.drop l) k

/-- UTF-8 encoding of a whole code-point sequence (specification-side
representation used to state invariants). -/
def encodeStr : List Nat → List Nat
  | [] => []
  | c :: cs => utf8_getchars c ++ encodeStr cs

/-- Code points the engine's 1-3 byte encoder round-trips. -/
def ValidCp (c : Nat) : Prop := c < 0x10000

instance : DecidablePred ValidCp := fun c => by unfold ValidCp; infer_instance

/-! ## The line buffer (`struct current`, src/linenoise.c:189-207)

`buf` models the whole backing array (all `bufmax` bytes), not only the
first `len` bytes, so that the placement of the terminating null byte is
part of the model. -/

structure Current where
  buf : List Nat
  bufmax : Nat
  len : Nat
  chars : Nat
  pos : Nat
  cols : Nat
  prompt : List Nat
  capture : Option (List Nat)
deriving Repr, DecidableEq

/-- `has_room` (src/linenoise.c:1231). -/
def has_room (s : Current) (bytes : Nat) : Bool :=
  s.len + bytes < s.bufmax - 1

/-- `get_char` (src/linenoise.c:998): code point at character position
`pos`, or -1 when out of range. -/
def get_char (s : Current) (pos : Int) : Int :=
  if 0 ≤ pos ∧ pos < s.chars then
    let i := utf8_index s.buf pos.toNat
    ((utf8_tounicode (s.buf.drop i)).2 : Int)
  else -1

/-- `insert_char` (src/linenoise.c:1279): insert code point `ch` at
character position `pos`.  The `memmove` copies `len - p1` bytes (the
terminating null byte is not moved), exactly as in the C source.
Returns the updated state and the C return value (0 = nothing inserted,
2 = the write-through optimisation applied, 1 otherwise). -/
def insert_char (s : Current) (pos : Int) (ch : Nat) : Current × Nat :=
  let enc := utf8_getchars ch
  let n := enc.length
  if has_room s n ∧ 0 ≤ pos ∧ pos ≤ s.chars then
    let p := pos.toNat
    let p1 := utf8_index s.buf p
    let ret : Nat :=
      if s.pos = p ∧ s.chars = p ∧ 32 ≤ ch ∧
          utf8_strlen s.prompt (-1) + utf8_strlen s.buf s.len < s.cols - 1
      then 2 else 1
    let buf' := s.buf.take p1 ++ enc ++ (s.buf.drop p1).take (s.len - p1)
        ++ s.buf.drop (s.len + n)
    let pos' := if p ≤ s.pos then s.pos + 1 else s.pos
    ({ s with buf := buf', len := s.len + n, chars := s.chars + 1, pos := pos' }, ret)
  else (s, 0)

/-- `remove_char` (src/linenoise.c:1242): remove the character at
position `pos`.  The `memmove` copies `len - p2 + 1` bytes (the null
byte is moved too). -/
def remove_char (s : Current) (pos : Int) : Current × Nat :=
  if 0 ≤ pos ∧ pos < s.chars then
    let p := pos.toNat
    let p1 := utf8_index s.buf p
    let p2 := p1 + utf8_index (s.buf.drop p1) 1
    let ret : Nat :=
      if s.pos = p + 1 ∧ s.pos = s.chars ∧ 32 ≤ byteAt s.buf p ∧
          utf8_strlen s.prompt (-1) + utf8_strlen s.buf s.len < s.cols - 1
      then 2 else 1
    let buf' := s.buf.take p1 ++ (s.buf.drop p2).take (s.len - p2 + 1)
        ++ s.buf.drop (p1 + (s.len - p2 + 1))
    let pos' := if p < s.pos then s.pos - 1 else s.pos
    ({ s with buf := buf', len := s.len - (p2 - p1), chars := s.chars - 1, pos := pos' }, ret)
  else (s, 0)

/-- The `EditState` of a `linenoise` call before any typing: a 4096-byte
zeroed buffer (src/linenoise.c:1872,1888-1894 with `set_current(current, "")`). -/
def emptyLine : Current :=
  { buf := List.replicate 4096 0, bufmax := 4096, len := 0, chars := 0,
    pos := 0, cols := 80, prompt := [], capture := none }

/-- A character-indexed edit operation, as in claim C1. -/
inductive EditOp where
  | ins (pos : Int) (ch : Nat)
  | rem (pos : Int)
deriving Repr, DecidableEq

def applyOp (s : Current) : EditOp → Current
  | .ins p c => (insert_char s p c).1
  | .rem p => (remove_char s p).1

def applyOps (s : Current) (ops : List EditOp) : Current := ops.foldl applyOp s

/-- The buffer is null-terminated: the byte just past the content is 0. -/
def nullTerminated (s : Current) : Prop := byteAt s.buf s.len = 0

instance : DecidablePred nullTerminated := fun s => by
  unfold nullTerminated; infer_instance

/-- C1: refuted as stated.  Starting from the empty line, inserting U+00E9
(2 UTF-8 bytes), inserting `a`, removing the first character and then
inserting `x` leaves the stale byte 0x61 at `buf[len]`: the buffer is NOT
null-terminated (`insert_char`'s `memmove` copies only `len - p1` bytes,
never re-establishing the terminator that the multi-byte `remove_char`
shift left behind), although the struct documentation
(src/linenoise.c:190) promises a always-null-terminated buffer.  The
other two conjuncts of the claim (`chars` equals the UTF-8 length of the
first `len` bytes, and `pos ≤ chars`) do hold at this input. -/
theorem C1_insert_breaks_null_termination :
    ¬ nullTerminated (applyOps emptyLine [.ins 0 0xE9, .ins 1 0x61, .rem 0, .ins 1 0x78]) ∧
    byteAt (applyOps emptyLine [.ins 0 0xE9, .ins 1 0x61, .rem 0, .ins 1 0x78]).buf
      (applyOps emptyLine [.ins 0 0xE9, .ins 1 0x61, .rem 0, .ins 1 0x78]).len = 0x61 ∧
    (applyOps emptyLine [.ins 0 0xE9, .ins 1 0x61, .rem 0, .ins 1 0x78]).len = 2 ∧
    (applyOps emptyLine [.ins 0 0xE9, .ins 1 0x61, .rem 0, .ins 1 0x78]).chars =
      utf8_strlen (applyOps emptyLine [.ins 0 0xE9, .ins 1 0x61, .rem 0, .ins 1 0x78]).buf 2 ∧
    (applyOps emptyLine [.ins 0 0xE9, .ins 1 0x61, .rem 0, .ins 1 0x78]).pos ≤
      (applyOps emptyLine [.ins 0 0xE9, .ins 1 0x61, .rem 0, .ins 1 0x78]).chars := by
  decide

/-! ## History store (src/linenoise.c:184-186, 1913-1949, 1995-2071) -/

structure HistoryState where
  history_max_len : Nat
  history : List (List Nat)
deriving Repr, DecidableEq

/-- `linenoiseHistoryAdd` (src/linenoise.c:1913): returns the new store
and the C return value as a Bool (false when max length is zero or the
line equals the most recent entry; allocation is assumed to succeed). -/
def linenoiseHistoryAdd (h : HistoryState) (line : List Nat) : HistoryState × Bool :=
  if h.history_max_len = 0 then (h, false)
  else if h.history.getLast? = some line then (h, false)
  else
    let hist1 := if h.history.length = h.history_max_len then h.history.drop 1
                 else h.history
    ({ h with history := hist1 ++ [line] }, true)

/-- Fold `linenoiseHistoryAdd` over a list of lines, in order. -/
def addAll (h : HistoryState) (lines : List (List Nat)) : HistoryState :=
  lines.foldl (fun h l => (linenoiseHistoryAdd h l).1) h

/-- The escaping loop of `linenoiseHistorySave` (src/linenoise.c:2006-2020)
applied to one entry: backslash, newline and carriage return become
two-byte escapes. -/
def escapeEntry : List Nat → List Nat
  | [] => []
  | b :: rest =>
    (if b = 92 then [92, 92]
     else if b = 10 then [92, 110]
     else if b = 13 then [92, 114]
     else [b]) ++ escapeEntry rest

/-- `linenoiseHistorySave` (src/linenoise.c:1995): the byte stream written
to the file, one escaped entry per line, each terminated by a newline. -/
def saveBytes : List (List Nat) → List Nat
  | [] => []
  | e :: es => escapeEntry e ++ [10] ++ saveBytes es

/-- One `fgets(buf, n+1, fp)` call on a byte stream: reads at most `n`
bytes, stopping after a newline; returns the bytes read and the rest of
the stream. -/
def fgetsChunk : List Nat → Nat → List Nat × List Nat
  | bs, 0 => ([], bs)
  | [], _ + 1 => ([], [])
  | b :: rest, n + 1 =>
    if b = 10 then ([b], rest)
    else
      let (c, r) := fgetsChunk rest n
      (b :: c, r)

/-- The backslash-decoding loop of `linenoiseHistoryLoad`
(src/linenoise.c:2045-2060).  A backslash as the final byte makes the C
read the string terminator as the escaped character and store it; the
model writes that 0 and stops, matching the zero-filled-tail reading. -/
def unescape : List Nat → List Nat
  | [] => []
  | b :: rest =>
    if b = 0 then []
    else if b = 92 then
      match rest with
      | [] => [0]
      | b2 :: rest' =>
        (if b2 = 110 then 10 else if b2 = 114 then 13 else b2) :: unescape rest'
    else b :: unescape rest

/-- Trailing-newline removal of `linenoiseHistoryLoad`
(src/linenoise.c:2062-2064): at most one final newline or carriage
return is dropped. -/
def stripTrailingNewline (l : List Nat) : List Nat :=
  match l.getLast? with
  | some b => if b = 10 ∨ b = 13 then l.dropLast else l
  | none => l

theorem fgetsChunk_rest_length_le (bs : List Nat) (n : Nat) :
    ((fgetsChunk bs n).2).length ≤ bs.length := by
  induction bs generalizing n with
  | nil => cases n <;> simp [fgetsChunk]
  | cons b rest ih =>
    cases n with
    | zero => simp [fgetsChunk]
    | succ n =>
      simp only [fgetsChunk]
      split
      · simp
      · have := ih n
        simp only [List.length_cons]
        omega

theorem addAll_append_singleton (h : HistoryState) (ls : List (List Nat))
    (l : List Nat) :
    addAll h (ls ++ [l]) = (linenoiseHistoryAdd (addAll h ls) l).1 := by
  simp [addAll, List.foldl_append]

theorem getLast?_drop_of_lt {α : Type} (ls : List α) (n : Nat) (h : n < ls.length) :
    (ls.drop n).getLast? = ls.getLast? := by
  rw [List.getLast?_eq_getElem?, List.getLast?_eq_getElem?, List.getElem?_drop,
    List.length_drop]
  congr 1
  omega

/-- Adding pairwise-distinct lines to an initially empty store of capacity
`k` always keeps exactly the most recent `min n k` lines, in order. -/
theorem addAll_window (k : Nat) (hk : 0 < k) (lines : List (List Nat))
    (hd : lines.Pairwise (· ≠ ·)) :
    addAll ⟨k, []⟩ lines =
      ⟨k, lines.drop (lines.length - k)⟩ := by
  induction lines using List.reverseRecOn with
  | nil => simp [addAll]
  | append_singleton ls l ih =>
    have hd' : ls.Pairwise (· ≠ ·) ∧ ∀ x ∈ ls, x ≠ l := by
      rw [List.pairwise_append] at hd
      exact ⟨hd.1, fun x hx => hd.2.2 x hx l (by simp)⟩
    rw [addAll_append_singleton, ih hd'.1]
    have hnotlast : (ls.drop (ls.length - k)).getLast? ≠ some l := by
      rcases hls : ls with _ | ⟨a, ls'⟩
      · simp
      · rw [← hls]
        have hne : ls ≠ [] := by rw [hls]; simp
        rw [getLast?_drop_of_lt ls _ (by
          have : 0 < ls.length := List.length_pos.mpr hne
          omega)]
        intro hcon
        have hmem : l ∈ ls := by
          rcases List.getLast?_eq_some_iff.mp hcon with ⟨ys, hys⟩
          rw [hys]; simp
        exact hd'.2 l hmem rfl
    simp only [linenoiseHistoryAdd]
    rw [if_neg (by omega), if_neg hnotlast]
    simp only [List.length_drop]
    by_cases hlen : ls.length - (ls.length - k) = k
    · rw [if_pos hlen]
      have hgek : k ≤ ls.length := by omega
      simp only [List.drop_drop]
      congr 1
      rw [List.length_append, List.length_singleton,
        List.drop_append_of_le_length (by omega)]
      congr 2
      omega
    · rw [if_neg hlen]
      have hltk : ls.length < k := by omega
      congr 1
      rw [List.length_append, List.length_singleton]
      have h1 : ls.length - k = 0 := by omega
      have h2 : ls.length + 1 - k = 0 := by omega
      rw [h1, h2]
      simp

/-- C4: adding `n` pairwise-distinct lines in order to an empty history
store of maximum length `k < n` (`0 < k`) leaves exactly the last `k`
lines, in order, the oldest having been evicted first; and adding a line
equal to the most recent entry of any store is a no-op returning false
(`linenoiseHistoryAdd`, src/linenoise.c:1913-1949). -/
theorem C4_history_bounded_dedup (lines : List (List Nat)) (k : Nat)
    (st : HistoryState) (l : List Nat) (hk : 0 < k) (_hkn : k < lines.length)
    (hd : lines.Pairwise (· ≠ ·)) (hlast : st.history.getLast? = some l) :
    (addAll ⟨k, []⟩ lines).history = lines.drop (lines.length - k) ∧
    linenoiseHistoryAdd st l = (st, false) := by
  constructor
  · rw [addAll_window k hk lines hd]
  · simp only [linenoiseHistoryAdd, hlast]
    split <;> rfl

/-- Witness for C4 at a concrete input: three distinct lines into a store
of capacity two keep the last two; re-adding the most recent entry of the
store `[[5]]` is refused. -/
theorem C4_history_bounded_dedup_witness :
    (addAll ⟨2, []⟩ [[1], [2], [3]]).history = [[1], [2], [3]].drop 1 ∧
    linenoiseHistoryAdd ⟨2, [[5]]⟩ [5] = (⟨2, [[5]]⟩, false) :=
  C4_history_bounded_dedup [[1], [2], [3]] 2 ⟨2, [[5]]⟩ [5]
    (by decide) (by decide) (by decide) (by decide)

/-- The `fgets` loop of `linenoiseHistoryLoad` (src/linenoise.c:2041-2068):
read a line, decode escapes, strip the trailing newline and add the
entry.  Each iteration consumes at least one byte, so fuel equal to the
stream length makes the loop total while keeping it reducible. -/
def historyLoadGo : Nat → HistoryState → List Nat → HistoryState
  | 0, h, _ => h
  | fuel + 1, h, bytes =>
    if bytes = [] then h
    else
      let cr := fgetsChunk bytes 4095
      historyLoadGo fuel (linenoiseHistoryAdd h (stripTrailingNewline (unescape cr.1))).1 cr.2

/-- `linenoiseHistoryLoad` (src/linenoise.c:2035) on an in-memory byte
stream. -/
def linenoiseHistoryLoad (h : HistoryState) (bytes : List Nat) : HistoryState :=
  historyLoadGo bytes.length h bytes

theorem newline_not_mem_escapeEntry (e : List Nat) : 10 ∉ escapeEntry e := by
  induction e with
  | nil => simp [escapeEntry]
  | cons b rest ih =>
    simp only [escapeEntry, List.mem_append]
    rintro (hmem | hmem)
    · repeat' split at hmem
      all_goals simp_all
    · exact ih hmem

theorem fgetsChunk_newline (l : List Nat) :
    ∀ (r : List Nat) (cap : Nat), 10 ∉ l → l.length < cap →
    fgetsChunk (l ++ 10 :: r) cap = (l ++ [10], r) := by
  induction l with
  | nil =>
    intro r cap _ hcap
    rcases cap with _ | cap
    · omega
    · simp [fgetsChunk]
  | cons b rest ih =>
    intro r cap hnl hcap
    rcases cap with _ | cap
    · omega
    · have hb : b ≠ 10 := by intro hb; exact hnl (by simp [hb])
      simp only [List.cons_append, fgetsChunk, if_neg hb, List.append_eq]
      rw [ih r cap (fun hm => hnl (by simp [hm])) (by simpa using hcap)]

theorem fgetsChunk_full (l : List Nat) :
    ∀ (r : List Nat) (cap : Nat), 10 ∉ l → cap ≤ l.length →
    fgetsChunk (l ++ r) cap = (l.take cap, l.drop cap ++ r) := by
  induction l with
  | nil =>
    intro r cap _ hcap
    have : cap = 0 := by simpa using hcap
    subst this
    simp [fgetsChunk]
  | cons b rest ih =>
    intro r cap hnl hcap
    rcases cap with _ | cap
    · simp [fgetsChunk]
    · have hb : b ≠ 10 := by intro hb; exact hnl (by simp [hb])
      simp only [List.cons_append, fgetsChunk, if_neg hb, List.append_eq]
      rw [ih r cap (fun hm => hnl (by simp [hm])) (by simpa using hcap)]
      simp

theorem unescape_escapeEntry (e : List Nat) :
    ∀ (rest : List Nat), (∀ b ∈ e, b ≠ 0) →
    unescape (escapeEntry e ++ rest) = e ++ unescape rest := by
  induction e with
  | nil => intro rest _; simp [escapeEntry]
  | cons b tl ih =>
    intro rest hnz
    have hb0 : b ≠ 0 := hnz b (by simp)
    have htl : ∀ x ∈ tl, x ≠ 0 := fun x hx => hnz x (by simp [hx])
    by_cases h92 : b = 92
    · subst h92
      have h1 : escapeEntry (92 :: tl) ++ rest
          = 92 :: 92 :: (escapeEntry tl ++ rest) := by simp [escapeEntry]
      rw [h1]
      have h2 : unescape (92 :: 92 :: (escapeEntry tl ++ rest))
          = 92 :: unescape (escapeEntry tl ++ rest) := by simp [unescape]
      rw [h2, ih rest htl]
      try rfl
    · by_cases h10 : b = 10
      · subst h10
        have h1 : escapeEntry (10 :: tl) ++ rest
            = 92 :: 110 :: (escapeEntry tl ++ rest) := by simp [escapeEntry]
        rw [h1]
        have h2 : unescape (92 :: 110 :: (escapeEntry tl ++ rest))
            = 10 :: unescape (escapeEntry tl ++ rest) := by simp [unescape]
        rw [h2, ih rest htl]
        try rfl
      · by_cases h13 : b = 13
        · subst h13
          have h1 : escapeEntry (13 :: tl) ++ rest
              = 92 :: 114 :: (escapeEntry tl ++ rest) := by simp [escapeEntry]
          rw [h1]
          have h2 : unescape (92 :: 114 :: (escapeEntry tl ++ rest))
              = 13 :: unescape (escapeEntry tl ++ rest) := by simp [unescape]
          rw [h2, ih rest htl]
          try rfl
        · have h1 : escapeEntry (b :: tl) ++ rest
              = b :: (escapeEntry tl ++ rest) := by
            simp [escapeEntry, if_neg h92, if_neg h10, if_neg h13]
          rw [h1]
          have h2 : unescape (b :: (escapeEntry tl ++ rest))
              = b :: unescape (escapeEntry tl ++ rest) := by
            conv_lhs => rw [unescape.eq_def]
            simp only []
            rw [if_neg hb0, if_neg h92]
          rw [h2, ih rest htl]
          try rfl

theorem strip_append_newline (e : List Nat) :
    stripTrailingNewline (e ++ [10]) = e := by
  simp [stripTrailingNewline, List.getLast?_concat]

theorem historyLoadGo_nil (fuel : Nat) (h : HistoryState) :
    historyLoadGo fuel h [] = h := by
  cases fuel <;> simp [historyLoadGo]

/-- Loading the saved byte stream of `es` appends exactly `es` to the
already-loaded entries, provided entries are null-free, adjacent entries
are distinct, every escaped entry fits in the `fgets` buffer, and the
store capacity is not exceeded. -/
theorem historyLoadGo_saveBytes (es : List (List Nat)) :
    ∀ (fuel M : Nat) (done : List (List Nat)),
    (saveBytes es).length ≤ fuel →
    done.length + es.length ≤ M →
    (done ++ es).Chain' (· ≠ ·) →
    (∀ e ∈ es, ∀ b ∈ e, b ≠ 0) →
    (∀ e ∈ es, (escapeEntry e).length ≤ 4094) →
    historyLoadGo fuel ⟨M, done⟩ (saveBytes es) = ⟨M, done ++ es⟩ := by
  induction es with
  | nil =>
    intro fuel M done _ _ _ _ _
    simp [saveBytes, historyLoadGo_nil]
  | cons e es ih =>
    intro fuel M done hfuel hcap hchain hnz hesc
    have hlen : (saveBytes (e :: es)).length
        = (escapeEntry e).length + 1 + (saveBytes es).length := by
      simp [saveBytes]
      omega
    rcases fuel with _ | fuel
    · omega
    have hbytes : saveBytes (e :: es) = escapeEntry e ++ 10 :: saveBytes es := by
      simp [saveBytes]
    have hchunk : fgetsChunk (saveBytes (e :: es)) 4095
        = (escapeEntry e ++ [10], saveBytes es) := by
      rw [hbytes]
      exact fgetsChunk_newline (escapeEntry e) (saveBytes es) 4095
        (newline_not_mem_escapeEntry e)
        (by have := hesc e (by simp); omega)
    have hentry : stripTrailingNewline (unescape (escapeEntry e ++ [10])) = e := by
      rw [unescape_escapeEntry e [10] (hnz e (by simp))]
      have h10 : unescape [10] = [10] := by simp [unescape]
      rw [h10, strip_append_newline]
    have hadd : linenoiseHistoryAdd ⟨M, done⟩ e = (⟨M, done ++ [e]⟩, true) := by
      simp only [linenoiseHistoryAdd]
      have hM : M ≠ 0 := by simp at hcap ⊢; omega
      rw [if_neg hM]
      have hlast : done.getLast? ≠ some e := by
        intro hcon
        rcases List.getLast?_eq_some_iff.mp hcon with ⟨ys, hys⟩
        rw [hys] at hchain
        rw [List.append_assoc, List.chain'_append] at hchain
        have := hchain.2.1
        simp [List.chain'_cons] at this
      rw [if_neg hlast]
      have hlt : done.length ≠ M := by
        simp only [List.length_cons] at hcap
        omega
      rw [if_neg hlt]
    simp only [historyLoadGo, hbytes]
    rw [← hbytes, if_neg (by rw [hbytes]; simp), hchunk]
    simp only [hentry, hadd]
    have := ih fuel M (done ++ [e]) (by omega)
      (by simp only [List.length_append, List.length_singleton,
            List.length_cons, List.length_nil] at hcap ⊢
          omega)
      (by rwa [List.append_assoc, List.singleton_append])
      (fun x hx => hnz x (by simp [hx])) (fun x hx => hesc x (by simp [hx]))
    rw [this, List.append_assoc, List.singleton_append]

theorem escapeEntry_append (a b : List Nat) :
    escapeEntry (a ++ b) = escapeEntry a ++ escapeEntry b := by
  induction a with
  | nil => simp [escapeEntry]
  | cons x xs ih => simp [escapeEntry, ih]

theorem escapeEntry_replicate_backslash (n : Nat) :
    escapeEntry (List.replicate n 92) = List.replicate (2 * n) 92 := by
  induction n with
  | zero => simp [escapeEntry]
  | succ n ih =>
    rw [List.replicate_succ, show 2 * (n + 1) = 2 * n + 1 + 1 by omega,
      List.replicate_succ, List.replicate_succ]
    simp [escapeEntry, ih]

theorem historyLoadGo_succ (fuel : Nat) (h : HistoryState) (bytes : List Nat)
    (hne : bytes ≠ []) :
    historyLoadGo (fuel + 1) h bytes
      = historyLoadGo fuel
          (linenoiseHistoryAdd h
            (stripTrailingNewline (unescape (fgetsChunk bytes 4095).1))).1
          (fgetsChunk bytes 4095).2 := by
  simp [historyLoadGo, hne]

/-- Loading the save of the single entry of `n` backslashes plus `x`,
when the escaped record is exactly 4095 bytes plus its newline, splits
at the `fgets` buffer boundary and produces a spurious empty entry. -/
theorem backslash_pad_load (n : Nat) (hn : 2 * n + 1 = 4095) :
    (linenoiseHistoryLoad ⟨100, []⟩
        (saveBytes [List.replicate n 92 ++ [120]])).history
      = [List.replicate n 92 ++ [120], []] := by
  have hesc : escapeEntry (List.replicate n 92 ++ [120])
      = List.replicate (2 * n) 92 ++ [120] := by
    have h120 : escapeEntry [120] = [120] := by simp [escapeEntry]
    rw [escapeEntry_append, escapeEntry_replicate_backslash, h120]
  have hsave : saveBytes [List.replicate n 92 ++ [120]]
      = (List.replicate (2 * n) 92 ++ [120]) ++ [10] := by
    simp [saveBytes, hesc]
  have hlen1 : (List.replicate (2 * n) 92 ++ [120] : List Nat).length
      = 2 * n + 1 := by
    simp only [List.length_append, List.length_replicate, List.length_singleton]
  have hno10 : (10 : Nat) ∉ List.replicate (2 * n) 92 ++ [120] := by
    simp [List.mem_replicate]
  have hchunk1 : fgetsChunk ((List.replicate (2 * n) 92 ++ [120]) ++ [10]) 4095
      = (List.replicate (2 * n) 92 ++ [120], [10]) := by
    rw [fgetsChunk_full _ _ 4095 hno10 (by omega)]
    rw [List.take_of_length_le (by omega), List.drop_eq_nil_of_le (by omega)]
    simp
  have hune1 : unescape (List.replicate (2 * n) 92 ++ [120])
      = List.replicate n 92 ++ [120] := by
    have := unescape_escapeEntry (List.replicate n 92 ++ [120]) []
      (by intro b hb
          rcases List.mem_append.mp hb with hb | hb
          · rw [List.eq_of_mem_replicate hb]; omega
          · simp at hb; omega)
    simp only [List.append_nil] at this
    rw [hesc] at this
    rw [this]
    simp [unescape]
  have hstrip1 : stripTrailingNewline (List.replicate n 92 ++ [120])
      = List.replicate n 92 ++ [120] := by
    simp [stripTrailingNewline, List.getLast?_concat]
  have hadd1 : linenoiseHistoryAdd ⟨100, []⟩ (List.replicate n 92 ++ [120])
      = (⟨100, [List.replicate n 92 ++ [120]]⟩, true) := by
    simp [linenoiseHistoryAdd]
  have hblen : ((List.replicate (2 * n) 92 ++ [120]) ++ [10] : List Nat).length
      = 4096 := by
    simp only [List.length_append, List.length_replicate, List.length_singleton]
    omega
  rw [linenoiseHistoryLoad, hsave, hblen,
    show (4096 : Nat) = 4095 + 1 from rfl,
    historyLoadGo_succ _ _ _ (by simp), hchunk1]
  simp only [hune1, hstrip1, hadd1]
  rw [show (4095 : Nat) = 4094 + 1 from rfl,
    historyLoadGo_succ _ _ _ (by simp)]
  have hchunk2 : fgetsChunk [10] 4095 = ([10], []) := by decide
  rw [hchunk2]
  have hstep2 : stripTrailingNewline (unescape [10]) = [] := by decide
  rw [hstep2]
  have hadd2 : linenoiseHistoryAdd ⟨100, [List.replicate n 92 ++ [120]]⟩ []
      = (⟨100, [List.replicate n 92 ++ [120], []]⟩, true) := by
    simp [linenoiseHistoryAdd, List.getLast?_singleton]
  rw [hadd2, historyLoadGo_nil]

/-- C5: refuted as stated.  A legitimate store (one entry, so trivially
no adjacent duplicates, null-free bytes) holding the 2048-character
entry of 2047 backslashes followed by `x` escapes to a 4095-byte record;
with its terminating newline the line no longer fits the 4096-byte
`fgets` buffer of `linenoiseHistoryLoad` (src/linenoise.c:2037,2041), so
the read splits and loading the saved file appends a spurious empty
entry instead of reproducing the store. -/
theorem C5_oversized_entry_not_roundtripped :
    (linenoiseHistoryLoad ⟨100, []⟩
        (saveBytes [List.replicate 2047 92 ++ [120]])).history
      ≠ [List.replicate 2047 92 ++ [120]] := by
  rw [backslash_pad_load 2047 (by norm_num)]
  intro hcon
  have := congrArg List.length hcon
  simp only [List.length_cons, List.length_nil] at this
  omega

/-- C5 (amended): save-then-load into a fresh store of the same capacity
reproduces the original ordered entries exactly — including entries with
embedded backslashes, newlines and carriage returns — provided the store
satisfies its invariants (entries fit the capacity, no two consecutive
entries are equal, entries are C strings, i.e. null-free) and each
entry's escaped form is at most 4094 bytes, so that the record fits the
4096-byte `fgets` line buffer.  The second conjunct is the claim's
concrete scenario: the file content "ls -l\npwd\nls -l\n" loads as the
three entries "ls -l", "pwd", "ls -l" verbatim, no dedup across the
non-adjacent duplicates. -/
theorem C5_save_load_roundtrip (h : HistoryState)
    (hmax : h.history.length ≤ h.history_max_len)
    (hchain : h.history.Chain' (· ≠ ·))
    (hnz : ∀ e ∈ h.history, ∀ b ∈ e, b ≠ 0)
    (hfit : ∀ e ∈ h.history, (escapeEntry e).length ≤ 4094) :
    linenoiseHistoryLoad ⟨h.history_max_len, []⟩ (saveBytes h.history)
      = ⟨h.history_max_len, h.history⟩ ∧
    (linenoiseHistoryLoad ⟨100, []⟩
        [108, 115, 32, 45, 108, 10, 112, 119, 100, 10,
         108, 115, 32, 45, 108, 10]).history
      = [[108, 115, 32, 45, 108], [112, 119, 100], [108, 115, 32, 45, 108]] := by
  constructor
  · rw [linenoiseHistoryLoad]
    have := historyLoadGo_saveBytes h.history (saveBytes h.history).length
      h.history_max_len [] le_rfl (by simpa using hmax) (by simpa using hchain)
      hnz hfit
    simpa using this
  · decide

/-- Witness for C5 at a concrete store whose entries contain a newline
byte and a backslash byte. -/
theorem C5_save_load_roundtrip_witness :
    linenoiseHistoryLoad ⟨100, []⟩ (saveBytes [[97], [10], [92]])
      = ⟨100, [[97], [10], [92]]⟩ ∧
    (linenoiseHistoryLoad ⟨100, []⟩
        [108, 115, 32, 45, 108, 10, 112, 119, 100, 10,
         108, 115, 32, 45, 108, 10]).history
      = [[108, 115, 32, 45, 108], [112, 119, 100], [108, 115, 32, 45, 108]] :=
  C5_save_load_roundtrip ⟨100, [[97], [10], [92]]⟩
    (by decide) (by simp [List.chain'_cons, List.chain'_singleton])
    (by decide) (by decide)


/-! ## Word jumps (src/linenoise.c:2477-2512) -/

/-- `isWordChar` (src/linenoise.c:2477): `isalnum` in the default C
locale, i.e. ASCII digits and letters. -/
def isWordChar (ch : Int) : Bool :=
  (48 ≤ ch ∧ ch ≤ 57) ∨ (65 ≤ ch ∧ ch ≤ 90) ∨ (97 ≤ ch ∧ ch ≤ 122)

/-- First loop of `goLeftToStartOfWord`: step left over non-word
characters.  Fuel `pos` suffices since the loop stops at 0. -/
def goLeftSkipNonWordPos (s : Current) : Nat → Nat → Nat
  | pos, 0 => pos
  | pos, fuel + 1 =>
    if 0 < pos ∧ ¬ isWordChar (get_char s pos) then
      goLeftSkipNonWordPos s (pos - 1) fuel
    else pos

/-- Second loop of `goLeftToStartOfWord`: step left while the character
to the left is a word character. -/
def goLeftSkipWordPos (s : Current) : Nat → Nat → Nat
  | pos, 0 => pos
  | pos, fuel + 1 =>
    if 0 < pos ∧ isWordChar (get_char s ((pos : Int) - 1)) then
      goLeftSkipWordPos s (pos - 1) fuel
    else pos

/-- `goLeftToStartOfWord` (src/linenoise.c:2482). -/
def goLeftToStartOfWord (s : Current) : Current :=
  if s.pos = 0 then s
  else
    let p0 := s.pos - 1
    let p1 := goLeftSkipNonWordPos s p0 p0
    let p2 := goLeftSkipWordPos s p1 p1
    { s with pos := p2 }

/-- First loop of `goRightToEndOfWord`: step right over non-word
characters.  Fuel `chars - pos` suffices since the loop stops at
`chars`. -/
def goRightSkipNonWordPos (s : Current) : Nat → Nat → Nat
  | pos, 0 => pos
  | pos, fuel + 1 =>
    if pos < s.chars ∧ ¬ isWordChar (get_char s pos) then
      goRightSkipNonWordPos s (pos + 1) fuel
    else pos

/-- Second loop of `goRightToEndOfWord`: step right over word
characters. -/
def goRightSkipWordPos (s : Current) : Nat → Nat → Nat
  | pos, 0 => pos
  | pos, fuel + 1 =>
    if pos < s.chars ∧ isWordChar (get_char s pos) then
      goRightSkipWordPos s (pos + 1) fuel
    else pos

/-- `goRightToEndOfWord` (src/linenoise.c:2500). -/
def goRightToEndOfWord (s : Current) : Current :=
  let p1 := goRightSkipNonWordPos s s.pos (s.chars - s.pos)
  let p2 := goRightSkipWordPos s p1 (s.chars - p1)
  { s with pos := p2 }

theorem goLeftSkipNonWordPos_le (s : Current) :
    ∀ (fuel pos : Nat), goLeftSkipNonWordPos s pos fuel ≤ pos := by
  intro fuel
  induction fuel with
  | zero => intro pos; simp [goLeftSkipNonWordPos]
  | succ fuel ih =>
    intro pos
    simp only [goLeftSkipNonWordPos]
    split
    · exact le_trans (ih (pos - 1)) (by omega)
    · exact le_refl pos

theorem goLeftSkipWordPos_le (s : Current) :
    ∀ (fuel pos : Nat), goLeftSkipWordPos s pos fuel ≤ pos := by
  intro fuel
  induction fuel with
  | zero => intro pos; simp [goLeftSkipWordPos]
  | succ fuel ih =>
    intro pos
    simp only [goLeftSkipWordPos]
    split
    · exact le_trans (ih (pos - 1)) (by omega)
    · exact le_refl pos

theorem goRightSkipNonWordPos_ge (s : Current) :
    ∀ (fuel pos : Nat), pos ≤ goRightSkipNonWordPos s pos fuel := by
  intro fuel
  induction fuel with
  | zero => intro pos; simp [goRightSkipNonWordPos]
  | succ fuel ih =>
    intro pos
    simp only [goRightSkipNonWordPos]
    split
    · exact le_trans (by omega) (ih (pos + 1))
    · exact le_refl pos

theorem goRightSkipWordPos_ge (s : Current) :
    ∀ (fuel pos : Nat), pos ≤ goRightSkipWordPos s pos fuel := by
  intro fuel
  induction fuel with
  | zero => intro pos; simp [goRightSkipWordPos]
  | succ fuel ih =>
    intro pos
    simp only [goRightSkipWordPos]
    split
    · exact le_trans (by omega) (ih (pos + 1))
    · exact le_refl pos

theorem goRightSkipNonWordPos_le_chars (s : Current) :
    ∀ (fuel pos : Nat), pos ≤ s.chars →
      goRightSkipNonWordPos s pos fuel ≤ s.chars := by
  intro fuel
  induction fuel with
  | zero => intro pos h; simpa [goRightSkipNonWordPos] using h
  | succ fuel ih =>
    intro pos h
    simp only [goRightSkipNonWordPos]
    split
    · exact ih (pos + 1) (by omega)
    · exact h

/-- With enough fuel, the word-skipping right loop ends at the buffer
end or on a non-word character: a word end boundary. -/
theorem goRightSkipWordPos_boundary (s : Current) :
    ∀ (fuel pos : Nat), pos ≤ s.chars → s.chars - pos ≤ fuel →
      (goRightSkipWordPos s pos fuel = s.chars ∨
        ¬ isWordChar (get_char s (goRightSkipWordPos s pos fuel))) ∧
      goRightSkipWordPos s pos fuel ≤ s.chars := by
  intro fuel
  induction fuel with
  | zero =>
    intro pos h hf
    have : pos = s.chars := by omega
    simp [goRightSkipWordPos, this]
  | succ fuel ih =>
    intro pos h hf
    simp only [goRightSkipWordPos]
    split
    · exact ih (pos + 1) (by omega) (by omega)
    · rename_i hcond
      constructor
      · by_cases hp : pos = s.chars
        · exact Or.inl hp
        · refine Or.inr ?_
          intro hw
          exact hcond ⟨by omega, hw⟩
      · exact h

theorem goLeftToStartOfWord_fields (s : Current) :
    (goLeftToStartOfWord s).buf = s.buf ∧
    (goLeftToStartOfWord s).chars = s.chars ∧
    (goLeftToStartOfWord s).len = s.len := by
  unfold goLeftToStartOfWord
  split <;> exact ⟨rfl, rfl, rfl⟩

theorem goLeftToStartOfWord_le (s : Current) :
    (goLeftToStartOfWord s).pos ≤ s.pos := by
  unfold goLeftToStartOfWord
  split
  · exact le_refl _
  · rename_i hpos
    have h1 := goLeftSkipNonWordPos_le s (s.pos - 1) (s.pos - 1)
    have h2 := goLeftSkipWordPos_le s
      (goLeftSkipNonWordPos s (s.pos - 1) (s.pos - 1))
      (goLeftSkipNonWordPos s (s.pos - 1) (s.pos - 1))
    simp only []
    omega

theorem get_char_congr (s t : Current) (hbuf : t.buf = s.buf)
    (hchars : t.chars = s.chars) (p : Int) : get_char t p = get_char s p := by
  unfold get_char
  rw [hbuf, hchars]



/-- A line buffer holding "abc" with the cursor at character 1. -/
def wordJumpCexA : Current :=
  { buf := [97, 98, 99, 0, 0, 0, 0, 0], bufmax := 8, len := 3, chars := 3,
    pos := 1, cols := 80, prompt := [], capture := none }

/-- A line buffer holding "ab cd" with the cursor at character 3, the
start of the word "cd". -/
def wordJumpCexB : Current :=
  { buf := [97, 98, 32, 99, 100, 0, 0, 0], bufmax := 8, len := 5, chars := 5,
    pos := 3, cols := 80, prompt := [], capture := none }

/-- C10: refuted as stated.  In "abc" with the cursor at 1, jump-left
reaches 0 and jump-right from there reaches 3, which is after the
original position, not at or before it; and in "ab cd" with the cursor
at 3 — a word boundary (start of "cd") — jump-left moves to 0, so the
jumps are not idempotent at word boundaries. -/
theorem C10_word_jump_counterexample :
    (goRightToEndOfWord (goLeftToStartOfWord wordJumpCexA)).pos = 3 ∧
    ¬ (goRightToEndOfWord (goLeftToStartOfWord wordJumpCexA)).pos
        ≤ wordJumpCexA.pos ∧
    wordJumpCexA.pos = 1 ∧
    (goLeftToStartOfWord wordJumpCexB).pos = 0 ∧
    wordJumpCexB.pos = 3 ∧
    isWordChar (get_char wordJumpCexB 3) = true ∧
    isWordChar (get_char wordJumpCexB 2) = false := by decide

/-- C10 (amended): for every state with `pos ≤ chars`, both jumps are
monotonic (left never increases the cursor, right never decreases it and
never passes the end), jumping left and then right from the resulting
position lands on a word-end boundary (the buffer end or a non-word
character) — though possibly after the original position — and the jumps
are idempotent at the buffer boundaries (left at 0, right at `chars`). -/
theorem C10_word_jump_amended (s : Current) (hpos : s.pos ≤ s.chars) :
    (goLeftToStartOfWord s).pos ≤ s.pos ∧
    s.pos ≤ (goRightToEndOfWord s).pos ∧
    (goRightToEndOfWord s).pos ≤ s.chars ∧
    ((goRightToEndOfWord (goLeftToStartOfWord s)).pos = s.chars ∨
      ¬ isWordChar
          (get_char s ((goRightToEndOfWord (goLeftToStartOfWord s)).pos : Int))) ∧
    (s.pos = 0 → goLeftToStartOfWord s = s) ∧
    (s.pos = s.chars → goRightToEndOfWord s = s) := by
  have hfields := goLeftToStartOfWord_fields s
  have hLle := goLeftToStartOfWord_le s
  refine ⟨hLle, ?_, ?_, ?_, ?_, ?_⟩
  · unfold goRightToEndOfWord
    simp only []
    exact le_trans (goRightSkipNonWordPos_ge s (s.chars - s.pos) s.pos)
      (goRightSkipWordPos_ge s _ _)
  · unfold goRightToEndOfWord
    simp only []
    have h1 := goRightSkipNonWordPos_le_chars s (s.chars - s.pos) s.pos hpos
    exact (goRightSkipWordPos_boundary s _ _ h1 (by omega)).2
  · set t := goLeftToStartOfWord s with ht
    have htpos : t.pos ≤ t.chars := by
      rw [hfields.2.1]
      omega
    have h1 := goRightSkipNonWordPos_le_chars t (t.chars - t.pos) t.pos htpos
    have hb := goRightSkipWordPos_boundary t
      (t.chars - goRightSkipNonWordPos t t.pos (t.chars - t.pos))
      (goRightSkipNonWordPos t t.pos (t.chars - t.pos)) h1 (by omega)
    unfold goRightToEndOfWord
    simp only []
    rcases hb.1 with hb1 | hb1
    · exact Or.inl (by rw [hb1, hfields.2.1])
    · refine Or.inr ?_
      rw [← get_char_congr s t hfields.1 hfields.2.1]
      exact hb1
  · intro h0
    simp [goLeftToStartOfWord, h0]
  · intro hend
    obtain ⟨buf, bufmax, len, chars, pos, cols, prompt, capture⟩ := s
    simp only [] at hend
    subst hend
    simp [goRightToEndOfWord, goRightSkipNonWordPos, goRightSkipWordPos]



/-- Witness for the amended C10 at the concrete "ab cd" buffer with the
cursor at 3. -/
theorem C10_word_jump_amended_witness :
    (goLeftToStartOfWord wordJumpCexB).pos ≤ wordJumpCexB.pos ∧
    wordJumpCexB.pos ≤ (goRightToEndOfWord wordJumpCexB).pos ∧
    (goRightToEndOfWord wordJumpCexB).pos ≤ wordJumpCexB.chars ∧
    ((goRightToEndOfWord (goLeftToStartOfWord wordJumpCexB)).pos
        = wordJumpCexB.chars ∨
      ¬ isWordChar (get_char wordJumpCexB
          ((goRightToEndOfWord (goLeftToStartOfWord wordJumpCexB)).pos : Int))) ∧
    (wordJumpCexB.pos = 0 → goLeftToStartOfWord wordJumpCexB = wordJumpCexB) ∧
    (wordJumpCexB.pos = wordJumpCexB.chars →
      goRightToEndOfWord wordJumpCexB = wordJumpCexB) :=
  C10_word_jump_amended wordJumpCexB (by decide)



/-! ## Decoding an encoded character (bridge lemmas for the UTF-8 layer) -/

theorem byteAt_cons_zero (b : Nat) (l : List Nat) : byteAt (b :: l) 0 = b := rfl

theorem byteAt_cons_succ (b : Nat) (l : List Nat) (i : Nat) :
    byteAt (b :: l) (i + 1) = byteAt l i := rfl

theorem and192_of_cont : ∀ r : Nat, r < 64 → (128 + r) &&& 192 = 128 := by decide

theorem and_mask63 (x : Nat) : x &&& 63 = x % 64 := by
  have := Nat.and_pow_two_sub_one_eq_mod x 6
  norm_num at this
  exact this

theorem and_mask127 (x : Nat) : x &&& 127 = x % 128 := by
  have := Nat.and_pow_two_sub_one_eq_mod x 7
  norm_num at this
  exact this

theorem and_mask31 (x : Nat) : x &&& 31 = x % 32 := by
  have := Nat.and_pow_two_sub_one_eq_mod x 5
  norm_num at this
  exact this

theorem or_lead192 (q : Nat) (h : q < 64) : 192 ||| q = 192 + q := by
  have := Nat.mul_add_lt_is_or (b := q) (i := 6) (by norm_num; omega) 3
  norm_num at this
  omega

theorem or_lead128 (r : Nat) (h : r < 128) : 128 ||| r = 128 + r := by
  have := Nat.mul_add_lt_is_or (b := r) (i := 7) (by norm_num; omega) 1
  norm_num at this
  omega

theorem or_lead224 (h : Nat) (hh : h < 16) : 224 ||| h = 224 + h := by
  have := Nat.mul_add_lt_is_or (b := h) (i := 4) (by norm_num; omega) 14
  norm_num at this
  omega

theorem or_mul64 (q r : Nat) (h : r < 64) : q * 64 ||| r = q * 64 + r := by
  rw [Nat.mul_comm q 64]
  have := Nat.mul_add_lt_is_or (b := r) (i := 6) (by norm_num; omega) q
  norm_num at this
  omega

theorem or_mul4096 (q r : Nat) (h : r < 4096) : q * 4096 ||| r = q * 4096 + r := by
  rw [Nat.mul_comm q 4096]
  have := Nat.mul_add_lt_is_or (b := r) (i := 12) (by norm_num; omega) q
  norm_num at this
  omega

/-- Decoding the encoding of any code point below 0x10000 consumes
exactly the encoded bytes and returns the code point, whatever follows. -/
theorem utf8_tounicode_getchars (c : Nat) (hc : c < 0x10000) (rest : List Nat) :
    utf8_tounicode (utf8_getchars c ++ rest) = ((utf8_getchars c).length, c) := by
  by_cases h1 : c ≤ 0x7f
  · simp only [utf8_getchars, if_pos h1, List.singleton_append,
      List.length_singleton]
    unfold utf8_tounicode
    rw [byteAt_cons_zero, if_pos (by omega)]
  · by_cases h2 : c ≤ 0x7ff
    · have hq : c >>> 6 = c / 64 := by
        rw [Nat.shiftRight_eq_div_pow]
      have hr : c &&& 63 = c % 64 := and_mask63 c
      have hqlt : c / 64 < 32 := by omega
      have hrlt : c % 64 < 64 := by omega
      have henc : utf8_getchars c = [192 + c / 64, 128 + c % 64] := by
        simp only [utf8_getchars, if_neg h1, if_pos h2, hq, hr]
        rw [show (0xc0 : Nat) = 192 from rfl, show (0x80 : Nat) = 128 from rfl,
          or_lead192 _ (by omega), or_lead128 _ (by omega)]
      rw [henc]
      unfold utf8_tounicode
      rw [List.cons_append, List.cons_append, byteAt_cons_zero,
        byteAt_cons_succ, byteAt_cons_zero]
      rw [if_neg (by omega), if_pos (by omega),
        if_pos (by rw [and192_of_cont _ hrlt])]
      simp only [List.length_cons, List.length_singleton, Prod.mk.injEq]
      constructor
      · rfl
      · rw [and_mask63, and_mask127, Nat.shiftLeft_eq]
        norm_num
        rw [or_mul64 _ _ (by omega)]
        omega
    · have hh : c >>> 12 = c / 4096 := by
        rw [Nat.shiftRight_eq_div_pow]
      have hm : (c >>> 6) &&& 63 = c / 64 % 64 := by
        rw [Nat.shiftRight_eq_div_pow, and_mask63]
      have hr : c &&& 63 = c % 64 := and_mask63 c
      have hhlt : c / 4096 < 16 := by omega
      have henc : utf8_getchars c
          = [224 + c / 4096, 128 + c / 64 % 64, 128 + c % 64] := by
        simp only [utf8_getchars, if_neg h1, if_neg h2, hh, hm, hr]
        rw [show (0xe0 : Nat) = 224 from rfl, show (0x80 : Nat) = 128 from rfl,
          or_lead224 _ (by omega), or_lead128 _ (by omega),
          or_lead128 _ (by omega)]
      rw [henc]
      unfold utf8_tounicode
      rw [List.cons_append, List.cons_append, List.cons_append,
        byteAt_cons_zero, byteAt_cons_succ, byteAt_cons_zero,
        byteAt_cons_succ, byteAt_cons_succ, byteAt_cons_zero]
      rw [if_neg (by omega), if_neg (by omega), if_pos (by omega),
        if_pos (by
          constructor
          · rw [and192_of_cont _ (by omega)]
          · rw [and192_of_cont _ (by omega)])]
      simp only [List.length_cons, List.length_singleton, Prod.mk.injEq]
      constructor
      · rfl
      · rw [and_mask31, and_mask127, and_mask127, Nat.shiftLeft_eq,
          Nat.shiftLeft_eq]
        norm_num
        rw [or_mul4096 _ _ (by omega)]
        rw [show (224 + c / 4096) % 32 * 4096 + c / 64 % 64 % 128 * 64
            = ((224 + c / 4096) % 32 * 64 + c / 64 % 64 % 128) * 64 from by ring]
        rw [or_mul64 _ _ (by omega)]
        omega



theorem utf8_getchars_length_pos (c : Nat) : 1 ≤ (utf8_getchars c).length := by
  unfold utf8_getchars
  repeat' split
  all_goals simp

theorem utf8_getchars_length_le (c : Nat) : (utf8_getchars c).length ≤ 3 := by
  unfold utf8_getchars
  repeat' split
  all_goals simp

theorem encodeStr_append (a b : List Nat) :
    encodeStr (a ++ b) = encodeStr a ++ encodeStr b := by
  induction a with
  | nil => simp [encodeStr]
  | cons c cs ih => simp [encodeStr, ih]

theorem encodeStr_length_take_le (cs : List Nat) (k : Nat) :
    (encodeStr (cs.take k)).length ≤ (encodeStr cs).length := by
  conv_rhs => rw [← List.take_append_drop k cs]
  rw [encodeStr_append]
  simp

/-- The byte offset of character `k` inside an encoded buffer is the byte
length of the first `k` encoded characters, whatever bytes follow. -/
theorem utf8_index_encodeStr (cs : List Nat) (hv : ∀ c ∈ cs, c < 0x10000) :
    ∀ (k : Nat), k ≤ cs.length → ∀ (rest : List Nat),
    utf8_index (encodeStr cs ++ rest) k = (encodeStr (cs.take k)).length := by
  induction cs with
  | nil =>
    intro k hk rest
    have hk0 : k = 0 := by simpa using hk
    subst hk0
    simp [utf8_index, encodeStr]
  | cons c cs ih =>
    intro k hk rest
    cases k with
    | zero => simp [utf8_index, encodeStr]
    | succ k =>
      have hc : c < 0x10000 := hv c (by simp)
      have hcs : ∀ x ∈ cs, x < 0x10000 := fun x hx => hv x (by simp [hx])
      simp only [utf8_index, encodeStr, List.append_assoc,
        utf8_tounicode_getchars c hc (encodeStr cs ++ rest)]
      rw [List.drop_left' rfl]
      rw [ih hcs k (by simpa using hk) rest]
      simp [List.take_succ_cons, encodeStr]

/-- Counting characters over an encoded buffer, byte-budgeted to exactly
the encoded length, yields the number of characters. -/
theorem utf8_strlen_fuel_encodeStr (cs : List Nat) (hv : ∀ c ∈ cs, c < 0x10000) :
    ∀ (fuel : Nat) (rest : List Nat), (encodeStr cs).length ≤ fuel →
    utf8_strlen_fuel fuel (encodeStr cs ++ rest) (encodeStr cs).length
      = cs.length := by
  induction cs with
  | nil =>
    intro fuel rest _
    cases fuel <;> simp [utf8_strlen_fuel, encodeStr]
  | cons c cs ih =>
    intro fuel rest hfuel
    have hc : c < 0x10000 := hv c (by simp)
    have hcs : ∀ x ∈ cs, x < 0x10000 := fun x hx => hv x (by simp [hx])
    have hpos := utf8_getchars_length_pos c
    have hlen : (encodeStr (c :: cs)).length
        = (utf8_getchars c).length + (encodeStr cs).length := by
      simp [encodeStr]
    rcases fuel with _ | fuel
    · omega
    simp only [utf8_strlen_fuel]
    rw [if_neg (by omega)]
    simp only [encodeStr, List.append_assoc,
      utf8_tounicode_getchars c hc (encodeStr cs ++ rest)]
    rw [List.drop_left' rfl]
    have hsub : (utf8_getchars c ++ encodeStr cs).length
        - (utf8_getchars c).length = (encodeStr cs).length := by
      simp
    rw [hsub, ih hcs fuel rest (by omega)]
    simp only [List.length_cons]
    omega



/-! ## Representation invariant and operation bridges -/

/-- `s` holds exactly the code-point sequence `cs`: the first `len` bytes
of the backing array are the UTF-8 encoding of `cs`, the counters agree,
the cursor is in range, and there is at least the terminator byte plus
one spare byte of capacity (which `has_room` always preserves).  Code
points are positive (C strings cannot hold NUL) and below 0x10000 (the
3-byte encoder's range). -/
def Encodes (s : Current) (cs : List Nat) : Prop :=
  s.buf.take s.len = encodeStr cs ∧
  s.len = (encodeStr cs).length ∧
  s.chars = cs.length ∧
  s.pos ≤ cs.length ∧
  s.len + 2 ≤ s.bufmax ∧
  s.bufmax = s.buf.length ∧
  ∀ c ∈ cs, 0 < c ∧ c < 0x10000

instance (s : Current) (cs : List Nat) : Decidable (Encodes s cs) := by
  unfold Encodes
  infer_instance

theorem Encodes.buf_eq {s : Current} {cs : List Nat} (h : Encodes s cs) :
    s.buf = encodeStr cs ++ s.buf.drop s.len := by
  conv_lhs => rw [← List.take_append_drop s.len s.buf]
  rw [h.1]

theorem insert_char_encodes (s : Current) (cs : List Nat) (h : Encodes s cs)
    (p : Nat) (hp : p ≤ cs.length) (ch : Nat) (hch0 : 0 < ch)
    (hch : ch < 0x10000)
    (hroom : s.len + (utf8_getchars ch).length + 1 < s.bufmax) :
    Encodes (insert_char s (p : Int) ch).1 (cs.take p ++ ch :: cs.drop p) ∧
    (insert_char s (p : Int) ch).1.len = s.len + (utf8_getchars ch).length ∧
    (insert_char s (p : Int) ch).1.pos
      = (if p ≤ s.pos then s.pos + 1 else s.pos) ∧
    (insert_char s (p : Int) ch).2 ≠ 0 := by
  have hbufeq := h.buf_eq
  obtain ⟨htake, hlen, hchars, hpos, hcap, hbm, hvalid⟩ := h
  have hvlt : ∀ c ∈ cs, c < 0x10000 := fun c hc => (hvalid c hc).2
  have hAB : encodeStr cs = encodeStr (cs.take p) ++ encodeStr (cs.drop p) := by
    rw [← encodeStr_append, List.take_append_drop]
  have hlenAB : s.len
      = (encodeStr (cs.take p)).length + (encodeStr (cs.drop p)).length := by
    rw [hlen, hAB, List.length_append]
  have hp1 : utf8_index s.buf p = (encodeStr (cs.take p)).length := by
    rw [hbufeq]
    exact utf8_index_encodeStr cs hvlt p hp _
  have hbuf2 : s.buf = encodeStr (cs.take p)
      ++ (encodeStr (cs.drop p) ++ s.buf.drop s.len) := by
    conv_lhs => rw [hbufeq]
    rw [hAB, List.append_assoc]
  have hcond : has_room s (utf8_getchars ch).length = true ∧
      0 ≤ (p : Int) ∧ (p : Int) ≤ (s.chars : Int) := by
    refine ⟨?_, by exact_mod_cast Nat.zero_le p, ?_⟩
    · simp only [has_room, decide_eq_true_eq]
      omega
    · rw [hchars]
      exact_mod_cast hp
  have hstep1 : s.buf.take (utf8_index s.buf p) = encodeStr (cs.take p) := by
    rw [hp1]
    conv_lhs => rw [hbuf2]
    exact List.take_left' rfl
  have hstep2 : (s.buf.drop (utf8_index s.buf p)).take
      (s.len - utf8_index s.buf p) = encodeStr (cs.drop p) := by
    rw [hp1]
    conv_lhs => rw [hbuf2]
    rw [List.drop_left' rfl]
    apply List.take_left'
    omega
  have hexp : insert_char s (p : Int) ch
      = ({ s with
            buf := encodeStr (cs.take p) ++ utf8_getchars ch
              ++ encodeStr (cs.drop p)
              ++ s.buf.drop (s.len + (utf8_getchars ch).length),
            len := s.len + (utf8_getchars ch).length,
            chars := s.chars + 1,
            pos := if p ≤ s.pos then s.pos + 1 else s.pos },
          if s.pos = p ∧ s.chars = p ∧ 32 ≤ ch ∧
              utf8_strlen s.prompt (-1) + utf8_strlen s.buf s.len < s.cols - 1
            then 2 else 1) := by
    unfold insert_char
    rw [if_pos hcond]
    simp only [Int.toNat_ofNat, hstep1, hstep2]
  rw [hexp]
  have hT2len : (s.buf.drop (s.len + (utf8_getchars ch).length)).length
      = s.bufmax - (s.len + (utf8_getchars ch).length) := by
    rw [List.length_drop, hbm]
  have hencs : encodeStr (cs.take p ++ ch :: cs.drop p)
      = encodeStr (cs.take p)
        ++ (utf8_getchars ch ++ encodeStr (cs.drop p)) := by
    rw [encodeStr_append]
    simp [encodeStr]
  refine ⟨⟨?_, ?_, ?_, ?_, ?_, ?_, ?_⟩, ?_, ?_, ?_⟩
  · dsimp only
    have hencs2 : encodeStr (cs.take p ++ ch :: cs.drop p)
        = encodeStr (cs.take p) ++ utf8_getchars ch
          ++ encodeStr (cs.drop p) := by
      rw [hencs, ← List.append_assoc]
    rw [hencs2]
    apply List.take_left'
    simp only [List.length_append]
    omega
  · dsimp only
    rw [hencs]
    simp only [List.length_append]
    omega
  · dsimp only
    rw [hchars]
    simp only [List.length_append, List.length_cons, List.length_take,
      List.length_drop, Nat.min_eq_left hp]
    omega
  · dsimp only
    split <;>
      simp only [List.length_append, List.length_cons, List.length_take,
        Nat.min_eq_left hp] <;>
      simp only [List.length_drop] <;>
      omega
  · dsimp only
    omega
  · dsimp only
    simp only [List.length_append, hT2len]
    have h3 := utf8_getchars_length_le ch
    omega
  · intro c hc
    simp only [List.mem_append, List.mem_cons] at hc
    rcases hc with hc | hc | hc
    · exact hvalid c (List.mem_of_mem_take hc)
    · subst hc; exact ⟨hch0, hch⟩
    · exact hvalid c (List.mem_of_mem_drop hc)
  · rfl
  · rfl
  · dsimp only
    split <;> simp


theorem remove_char_encodes (s : Current) (cs : List Nat) (h : Encodes s cs)
    (p : Nat) (hp : p < cs.length) :
    Encodes (remove_char s (p : Int)).1 (cs.take p ++ cs.drop (p + 1)) ∧
    (remove_char s (p : Int)).1.pos
      = (if p < s.pos then s.pos - 1 else s.pos) ∧
    (remove_char s (p : Int)).2 ≠ 0 := by
  have hbufeq := h.buf_eq
  obtain ⟨htake, hlen, hchars, hpos, hcap, hbm, hvalid⟩ := h
  have hvlt : ∀ c ∈ cs, c < 0x10000 := fun c hc => (hvalid c hc).2
  set cp := cs[p] with hcpdef
  have hcpmem : cp ∈ cs := by
    rw [hcpdef]
    exact List.getElem_mem hp
  have hcplt : cp < 0x10000 := hvlt cp hcpmem
  have hdropcs : cs.drop p = cp :: cs.drop (p + 1) :=
    List.drop_eq_getElem_cons hp
  have hAB : encodeStr cs
      = encodeStr (cs.take p)
        ++ (utf8_getchars cp ++ encodeStr (cs.drop (p + 1))) := by
    conv_lhs => rw [← List.take_append_drop p cs]
    rw [encodeStr_append, hdropcs]
    simp [encodeStr]
  have hlenAB : s.len = (encodeStr (cs.take p)).length
      + ((utf8_getchars cp).length + (encodeStr (cs.drop (p + 1))).length) := by
    rw [hlen, hAB]
    simp [List.length_append]
  have hencpos := utf8_getchars_length_pos cp
  have hp1 : utf8_index s.buf p = (encodeStr (cs.take p)).length := by
    rw [hbufeq]
    exact utf8_index_encodeStr cs hvlt p (le_of_lt hp) _
  have hbuf2 : s.buf = encodeStr (cs.take p)
      ++ (utf8_getchars cp
        ++ (encodeStr (cs.drop (p + 1)) ++ s.buf.drop s.len)) := by
    conv_lhs => rw [hbufeq]
    rw [hAB]
    simp [List.append_assoc]
  have hidx1 : utf8_index (s.buf.drop (utf8_index s.buf p)) 1
      = (utf8_getchars cp).length := by
    rw [hp1]
    rw [show s.buf.drop (encodeStr (cs.take p)).length
        = utf8_getchars cp
          ++ (encodeStr (cs.drop (p + 1)) ++ s.buf.drop s.len) from by
      conv_lhs => rw [hbuf2]
      exact List.drop_left' rfl]
    simp only [utf8_index, utf8_tounicode_getchars cp hcplt]
    omega
  have hcond : 0 ≤ (p : Int) ∧ (p : Int) < (s.chars : Int) := by
    refine ⟨by exact_mod_cast Nat.zero_le p, ?_⟩
    rw [hchars]
    exact_mod_cast hp
  have hstep1 : s.buf.take (encodeStr (cs.take p)).length
      = encodeStr (cs.take p) := by
    conv_lhs => rw [hbuf2]
    exact List.take_left' rfl
  have hdrop2 : s.buf.drop
      ((encodeStr (cs.take p)).length + (utf8_getchars cp).length)
      = encodeStr (cs.drop (p + 1)) ++ s.buf.drop s.len := by
    conv_lhs => rw [hbuf2]
    rw [show encodeStr (cs.take p)
        ++ (utf8_getchars cp
          ++ (encodeStr (cs.drop (p + 1)) ++ s.buf.drop s.len))
        = (encodeStr (cs.take p) ++ utf8_getchars cp)
          ++ (encodeStr (cs.drop (p + 1)) ++ s.buf.drop s.len) from by
      simp [List.append_assoc]]
    apply List.drop_left'
    simp [List.length_append]
  unfold remove_char
  rw [if_pos hcond]
  dsimp only
  simp only [Int.toNat_ofNat]
  rw [hidx1, hp1]
  rw [show s.len - ((encodeStr (cs.take p)).length + (utf8_getchars cp).length)
        + 1 = (encodeStr (cs.drop (p + 1))).length + 1 from by omega]
  rw [show (encodeStr (cs.take p)).length + (utf8_getchars cp).length
        - (encodeStr (cs.take p)).length = (utf8_getchars cp).length from by
    omega]
  rw [hstep1, hdrop2]
  rw [List.take_append 1]
  have hencs : encodeStr (cs.take p ++ cs.drop (p + 1))
      = encodeStr (cs.take p) ++ encodeStr (cs.drop (p + 1)) :=
    encodeStr_append _ _
  have htail1 : ((s.buf.drop s.len).take 1).length = 1 := by
    rw [List.length_take, List.length_drop]
    exact Nat.min_eq_left (by omega)
  refine ⟨⟨?_, ?_, ?_, ?_, ?_, ?_, ?_⟩, ?_, ?_⟩
  · dsimp only
    rw [hencs]
    rw [show encodeStr (cs.take p)
          ++ (encodeStr (cs.drop (p + 1)) ++ (s.buf.drop s.len).take 1)
          ++ s.buf.drop ((encodeStr (cs.take p)).length
            + ((encodeStr (cs.drop (p + 1))).length + 1))
        = (encodeStr (cs.take p) ++ encodeStr (cs.drop (p + 1)))
          ++ ((s.buf.drop s.len).take 1
            ++ s.buf.drop ((encodeStr (cs.take p)).length
              + ((encodeStr (cs.drop (p + 1))).length + 1))) from by
      simp [List.append_assoc]]
    rw [show s.len - (utf8_getchars cp).length
        = (encodeStr (cs.take p)).length
          + (encodeStr (cs.drop (p + 1))).length from by omega]
    apply List.take_left'
    simp [List.length_append]
  · dsimp only
    rw [hencs]
    simp only [List.length_append]
    omega
  · dsimp only
    rw [hchars]
    simp only [List.length_append, List.length_take, List.length_drop,
      Nat.min_eq_left (le_of_lt hp)]
    omega
  · dsimp only
    split <;>
      simp only [List.length_append, List.length_take, List.length_drop,
        Nat.min_eq_left (le_of_lt hp)] <;>
      omega
  · dsimp only
    omega
  · dsimp only
    simp only [List.length_append, List.length_drop, htail1, hbm]
    omega
  · intro c hc
    simp only [List.mem_append] at hc
    rcases hc with hc | hc
    · exact hvalid c (List.mem_of_mem_take hc)
    · exact hvalid c (List.mem_of_mem_drop hc)
  · trivial
  · dsimp only
    split <;> simp


/-! ## Capture buffer and multi-character operations
(src/linenoise.c:1318-1373) -/

/-- `capture_chars` (src/linenoise.c:1318): copy up to `n` characters
starting at `pos` into the cut buffer, replacing it, when the range is
in bounds and non-empty.  Allocation is assumed to succeed; a negative
`n` (undefined behaviour in the C loop) is clamped by `toNat`. -/
def capture_chars (s : Current) (pos n : Int) : Current :=
  if 0 ≤ pos ∧ pos + n - 1 < s.chars then
    let p1 := utf8_index s.buf pos.toNat
    let nbytes := utf8_index (s.buf.drop p1) n.toNat
    if nbytes ≠ 0 then
      { s with capture := some ((s.buf.drop p1).take nbytes) }
    else s
  else s

/-- The `while (n-- && remove_char(current, pos))` loop of
`remove_chars` (src/linenoise.c:1348), with the remaining iteration
count as fuel; returns the state and the number of removals. -/
def remove_loop : Current → Int → Nat → Current × Nat
  | s, _, 0 => (s, 0)
  | s, pos, fuel + 1 =>
    let r := remove_char s pos
    if r.2 = 0 then (r.1, 0)
    else
      let rec2 := remove_loop r.1 pos fuel
      (rec2.1, rec2.2 + 1)

/-- `remove_chars` (src/linenoise.c:1341): capture then remove up to `n`
characters at `pos`.  For a negative `n` the C loop keeps decrementing
`n` and stops only when `remove_char` fails, i.e. after at most `chars`
removals, which `chars` fuel covers. -/
def remove_chars (s : Current) (pos n : Int) : Current × Nat :=
  let s1 := capture_chars s pos n
  remove_loop s1 pos (if n < 0 then s1.chars else n.toNat)

/-- The `while (*chars)` loop of `insert_chars` (src/linenoise.c:1362):
decode one character from the byte string, insert it, advance.  Each
iteration consumes at least one byte, so fuel equal to the string length
makes the loop total. -/
def insert_loop : Current → Int → List Nat → Nat → Current × Nat
  | s, _, _, 0 => (s, 0)
  | s, pos, str, fuel + 1 =>
    if byteAt str 0 = 0 then (s, 0)
    else
      let d := utf8_tounicode str
      let r := insert_char s pos d.2
      if r.2 = 0 then (r.1, 0)
      else
        let rec2 := insert_loop r.1 (pos + 1) (str.drop d.1) fuel
        (rec2.1, rec2.2 + 1)

/-- `insert_chars` (src/linenoise.c:1358). -/
def insert_chars (s : Current) (pos : Int) (str : List Nat) : Current × Nat :=
  insert_loop s pos str str.length

/-- The round trip of claim C3: `remove_chars(pos, n)` (which captures
the removed characters) followed by `insert_chars(pos, captured)`, the
captured string read from the cut buffer as the `CTRL-Y` handler does
(src/linenoise.c:1835-1838). -/
def remove_then_reinsert (s : Current) (pos n : Int) : Current :=
  let s1 := (remove_chars s pos n).1
  (insert_chars s1 pos (s1.capture.getD [])).1

theorem insert_char_frame (s : Current) (pos : Int) (ch : Nat) :
    (insert_char s pos ch).1.capture = s.capture ∧
    (insert_char s pos ch).1.bufmax = s.bufmax ∧
    (insert_char s pos ch).1.prompt = s.prompt ∧
    (insert_char s pos ch).1.cols = s.cols := by
  unfold insert_char
  dsimp only
  split <;> exact ⟨rfl, rfl, rfl, rfl⟩

theorem remove_char_frame (s : Current) (pos : Int) :
    (remove_char s pos).1.capture = s.capture ∧
    (remove_char s pos).1.bufmax = s.bufmax ∧
    (remove_char s pos).1.prompt = s.prompt ∧
    (remove_char s pos).1.cols = s.cols := by
  unfold remove_char
  dsimp only
  split <;> exact ⟨rfl, rfl, rfl, rfl⟩



theorem byteAt_getchars_ne_zero (c : Nat) (hc0 : 0 < c) (hc : c < 0x10000)
    (rest : List Nat) : byteAt (utf8_getchars c ++ rest) 0 ≠ 0 := by
  unfold utf8_getchars
  by_cases h1 : c ≤ 0x7f
  · rw [if_pos h1]
    simp [byteAt_cons_zero]
    omega
  · by_cases h2 : c ≤ 0x7ff
    · rw [if_neg h1, if_pos h2]
      have hq : c >>> 6 = c / 64 := by rw [Nat.shiftRight_eq_div_pow]
      simp only [List.cons_append, byteAt_cons_zero, hq]
      rw [show (0xc0 : Nat) = 192 from rfl, or_lead192 _ (by omega)]
      omega
    · rw [if_neg h1, if_neg h2]
      have hh : c >>> 12 = c / 4096 := by rw [Nat.shiftRight_eq_div_pow]
      simp only [List.cons_append, byteAt_cons_zero, hh]
      rw [show (0xe0 : Nat) = 224 from rfl, or_lead224 _ (by omega)]
      omega

theorem capture_chars_encodes (s : Current) (cs : List Nat) (h : Encodes s cs)
    (p n : Nat) (hn : 1 ≤ n) (hpn : p + n ≤ cs.length) :
    capture_chars s (p : Int) (n : Int)
      = { s with capture := some (encodeStr ((cs.drop p).take n)) } := by
  have hbufeq := h.buf_eq
  obtain ⟨htake, hlen, hchars, hpos, hcap, hbm, hvalid⟩ := h
  have hvlt : ∀ c ∈ cs, c < 0x10000 := fun c hc => (hvalid c hc).2
  have hvdrop : ∀ c ∈ cs.drop p, c < 0x10000 :=
    fun c hc => hvlt c (List.mem_of_mem_drop hc)
  have hAB : encodeStr cs
      = encodeStr (cs.take p) ++ encodeStr (cs.drop p) := by
    rw [← encodeStr_append, List.take_append_drop]
  have hp1 : utf8_index s.buf p = (encodeStr (cs.take p)).length := by
    rw [hbufeq]
    exact utf8_index_encodeStr cs hvlt p (by omega) _
  have hbuf2 : s.buf = encodeStr (cs.take p)
      ++ (encodeStr (cs.drop p) ++ s.buf.drop s.len) := by
    conv_lhs => rw [hbufeq]
    rw [hAB, List.append_assoc]
  have hdrop1 : s.buf.drop (utf8_index s.buf p)
      = encodeStr (cs.drop p) ++ s.buf.drop s.len := by
    rw [hp1]
    conv_lhs => rw [hbuf2]
    exact List.drop_left' rfl
  have hsplit : encodeStr (cs.drop p)
      = encodeStr ((cs.drop p).take n) ++ encodeStr ((cs.drop p).drop n) := by
    rw [← encodeStr_append, List.take_append_drop]
  have hnb : utf8_index (s.buf.drop (utf8_index s.buf p)) n
      = (encodeStr ((cs.drop p).take n)).length := by
    rw [hdrop1]
    exact utf8_index_encodeStr (cs.drop p) hvdrop n
      (by rw [List.length_drop]; omega) _
  have hslice : (s.buf.drop (utf8_index s.buf p)).take
      (encodeStr ((cs.drop p).take n)).length
      = encodeStr ((cs.drop p).take n) := by
    rw [hdrop1, hsplit, List.append_assoc]
    exact List.take_left' rfl
  have hnbpos : (encodeStr ((cs.drop p).take n)).length ≠ 0 := by
    have hlt : (cs.drop p).take n ≠ [] := by
      have : ((cs.drop p).take n).length = n := by
        rw [List.length_take, List.length_drop]
        omega
      intro hcon
      rw [hcon] at this
      simp at this
      omega
    rcases hne : (cs.drop p).take n with _ | ⟨c, rest⟩
    · exact absurd hne hlt
    · have := utf8_getchars_length_pos c
      simp only [encodeStr, List.length_append]
      omega
  unfold capture_chars
  rw [if_pos (by
    constructor
    · exact_mod_cast Nat.zero_le p
    · rw [hchars]
      omega)]
  dsimp only
  simp only [Int.toNat_ofNat]
  rw [hnb, if_pos hnbpos, hslice]



theorem remove_loop_encodes (n : Nat) :
    ∀ (s : Current) (cs : List Nat), Encodes s cs →
    ∀ (p : Nat), p + n ≤ cs.length →
    Encodes (remove_loop s (p : Int) n).1 (cs.take p ++ cs.drop (p + n)) ∧
    (remove_loop s (p : Int) n).1.pos
      = (if p < s.pos then max p (s.pos - n) else s.pos) ∧
    (remove_loop s (p : Int) n).1.capture = s.capture ∧
    (remove_loop s (p : Int) n).1.bufmax = s.bufmax := by
  induction n with
  | zero =>
    intro s cs h p hpn
    refine ⟨?_, ?_, rfl, rfl⟩
    · simp only [remove_loop, Nat.add_zero, List.take_append_drop]
      exact h
    · simp only [remove_loop]
      split <;> omega
  | succ n ih =>
    intro s cs h p hpn
    have hplt : p < cs.length := by omega
    obtain ⟨he, hpos1, hret⟩ := remove_char_encodes s cs h p hplt
    have hframe := remove_char_frame s (p : Int)
    have hlen1 : (cs.take p ++ cs.drop (p + 1)).length = cs.length - 1 := by
      simp only [List.length_append, List.length_take, List.length_drop]
      rw [Nat.min_eq_left (le_of_lt hplt)]
      omega
    have hrec := ih (remove_char s (p : Int)).1 _ he p (by omega)
    have hcs2 : (cs.take p ++ cs.drop (p + 1)).take p
        ++ (cs.take p ++ cs.drop (p + 1)).drop (p + n)
        = cs.take p ++ cs.drop (p + (n + 1)) := by
      have hlt : (cs.take p).length = p := by
        rw [List.length_take]
        exact Nat.min_eq_left (le_of_lt hplt)
      rw [List.take_append_of_le_length (by omega)]
      rw [List.take_take, Nat.min_self]
      rw [show p + n = (cs.take p).length + n by omega, List.drop_append,
        List.drop_drop]
      congr 2
      omega
    simp only [remove_loop]
    rw [if_neg hret]
    dsimp only
    refine ⟨?_, ?_, ?_, ?_⟩
    · rw [← hcs2]
      exact hrec.1
    · rw [hrec.2.1, hpos1]
      split_ifs <;> omega
    · rw [hrec.2.2.1, hframe.1]
    · rw [hrec.2.2.2, hframe.2.1]

theorem insert_loop_encodes (slice : List Nat) :
    ∀ (s : Current) (cs : List Nat), Encodes s cs →
    ∀ (p : Nat), p ≤ cs.length →
    (∀ c ∈ slice, 0 < c ∧ c < 0x10000) →
    ∀ (fuel : Nat), (encodeStr slice).length ≤ fuel →
    s.len + (encodeStr slice).length + 1 < s.bufmax →
    Encodes (insert_loop s (p : Int) (encodeStr slice) fuel).1
      (cs.take p ++ slice ++ cs.drop p) ∧
    (insert_loop s (p : Int) (encodeStr slice) fuel).1.pos
      = (if p ≤ s.pos then s.pos + slice.length else s.pos) ∧
    (insert_loop s (p : Int) (encodeStr slice) fuel).1.capture = s.capture ∧
    (insert_loop s (p : Int) (encodeStr slice) fuel).1.bufmax = s.bufmax := by
  induction slice with
  | nil =>
    intro s cs h p hp _ fuel _ _
    have hnil : insert_loop s (p : Int) (encodeStr []) fuel = (s, 0) := by
      cases fuel <;> simp [insert_loop, encodeStr, byteAt]
    rw [hnil]
    refine ⟨?_, ?_, rfl, rfl⟩
    · simpa [List.take_append_drop] using h
    · dsimp only [List.length_nil]
      split <;> omega
  | cons c rest ih =>
    intro s cs h p hp hv fuel hfuel hroom
    have hc0 : 0 < c := (hv c (by simp)).1
    have hclt : c < 0x10000 := (hv c (by simp)).2
    have hvr : ∀ x ∈ rest, 0 < x ∧ x < 0x10000 :=
      fun x hx => hv x (by simp [hx])
    have hencc := utf8_getchars_length_pos c
    have hlenc : (encodeStr (c :: rest)).length
        = (utf8_getchars c).length + (encodeStr rest).length := by
      simp [encodeStr]
    rcases fuel with _ | fuel
    · omega
    have hbyte : byteAt (encodeStr (c :: rest)) 0 ≠ 0 := by
      simp only [encodeStr]
      exact byteAt_getchars_ne_zero c hc0 hclt _
    have hdec : utf8_tounicode (encodeStr (c :: rest))
        = ((utf8_getchars c).length, c) := by
      simp only [encodeStr]
      exact utf8_tounicode_getchars c hclt _
    obtain ⟨he1, hlen1, hpos1, hret1⟩ := insert_char_encodes s cs h p hp c hc0
      hclt (by omega)
    have hframe := insert_char_frame s (p : Int) c
    have hdropstr : (encodeStr (c :: rest)).drop (utf8_getchars c).length
        = encodeStr rest := by
      simp only [encodeStr]
      exact List.drop_left' rfl
    have hlencs1 : (cs.take p ++ c :: cs.drop p).length = cs.length + 1 := by
      simp only [List.length_append, List.length_take, List.length_cons,
        List.length_drop]
      rw [Nat.min_eq_left hp]
      omega
    have hrec := ih (insert_char s (p : Int) c).1 _ he1 (p + 1)
      (by omega) hvr fuel (by omega)
      (by rw [hlen1, hframe.2.1]; omega)
    have hcs2 : (cs.take p ++ c :: cs.drop p).take (p + 1)
        ++ rest ++ (cs.take p ++ c :: cs.drop p).drop (p + 1)
        = cs.take p ++ (c :: rest) ++ cs.drop p := by
      have hlt : (cs.take p).length = p := by
        rw [List.length_take]
        exact Nat.min_eq_left hp
      rw [show p + 1 = (cs.take p).length + 1 by omega, List.take_append,
        List.drop_append]
      simp
    simp only [insert_loop]
    rw [if_neg hbyte, hdec]
    dsimp only
    rw [if_neg hret1]
    dsimp only
    rw [hdropstr]
    have hcast : ((p : Int) + 1) = ((p + 1 : Nat) : Int) := by push_cast; ring
    rw [hcast]
    refine ⟨?_, ?_, ?_, ?_⟩
    · rw [← hcs2]
      exact hrec.1
    · rw [hrec.2.1, hpos1]
      simp only [List.length_cons]
      split_ifs <;> omega
    · rw [hrec.2.2.1, hframe.1]
    · rw [hrec.2.2.2, hframe.2.1]



theorem take_slice_drop (cs : List Nat) (p n : Nat) :
    cs.take p ++ (cs.drop p).take n ++ cs.drop (p + n) = cs := by
  have h1 : (cs.drop p).drop n = cs.drop (p + n) := by
    rw [List.drop_drop, Nat.add_comm]
  calc cs.take p ++ (cs.drop p).take n ++ cs.drop (p + n)
      = cs.take p ++ ((cs.drop p).take n ++ (cs.drop p).drop n) := by
        rw [← h1, List.append_assoc]
    _ = cs.take p ++ cs.drop p := by rw [List.take_append_drop]
    _ = cs := List.take_append_drop p cs

/-- The state of claim C3's counterexample: a line holding "ab" with the
cursor at the end. -/
def C3cex : Current :=
  { buf := [97, 98, 0, 0, 0, 0, 0, 0], bufmax := 8, len := 2, chars := 2,
    pos := 2, cols := 80, prompt := [], capture := none }

/-- C3, counterexample: the claim quantifies over EVERY position and
count, but `remove_chars(0, 3)` on the two-character line "ab" captures
nothing (the guard `pos + n - 1 < chars` in `capture_chars`,
src/linenoise.c:1320, fails for an overrunning range) while the removal
loop still deletes both characters, so the subsequent
`insert_chars(0, captured)` reinserts nothing: the buffer content and
character count are not restored. -/
theorem C3_roundtrip_counterexample :
    Encodes C3cex [97, 98] ∧
    (remove_then_reinsert C3cex 0 3).buf.take
        (remove_then_reinsert C3cex 0 3).len = [] ∧
    (remove_then_reinsert C3cex 0 3).chars = 0 ∧
    ¬((remove_then_reinsert C3cex 0 3).buf.take
          (remove_then_reinsert C3cex 0 3).len
        = C3cex.buf.take C3cex.len ∧
      (remove_then_reinsert C3cex 0 3).chars = C3cex.chars) := by
  decide

/-- C3, amended: on a well-formed state, for an in-range window
(`1 ≤ n`, `p + n ≤ chars`) that does not straddle the cursor
(`pos < p` or `p + n ≤ pos`), `remove_chars(p, n)` followed by
`insert_chars(p, captured)` restores the buffer content, the byte
length, the character count and the cursor position.  (When the cursor
lies inside the window, or at `p` itself, the cursor is NOT restored:
`remove_char` pulls it back only while `p < pos`, but every reinserted
character shifts it right as soon as `p ≤ pos`.) -/
theorem C3_remove_insert_roundtrip (s : Current) (cs : List Nat)
    (h : Encodes s cs) (p n : Nat) (hn : 1 ≤ n) (hpn : p + n ≤ cs.length)
    (hcur : s.pos < p ∨ p + n ≤ s.pos) :
    (remove_then_reinsert s (p : Int) (n : Int)).buf.take
        (remove_then_reinsert s (p : Int) (n : Int)).len
      = s.buf.take s.len ∧
    (remove_then_reinsert s (p : Int) (n : Int)).len = s.len ∧
    (remove_then_reinsert s (p : Int) (n : Int)).chars = s.chars ∧
    (remove_then_reinsert s (p : Int) (n : Int)).pos = s.pos := by
  have hp : p ≤ cs.length := by omega
  have hposb : s.pos ≤ cs.length := h.2.2.2.1
  have hcap := capture_chars_encodes s cs h p n hn hpn
  have h1 : Encodes
      { s with capture := some (encodeStr ((cs.drop p).take n)) } cs := h
  have hrc : remove_chars s (p : Int) (n : Int)
      = remove_loop
          { s with capture := some (encodeStr ((cs.drop p).take n)) }
          (p : Int) n := by
    simp only [remove_chars]
    rw [hcap, if_neg (by omega : ¬((n : Int) < 0)), Int.toNat_natCast]
  obtain ⟨h2, hpos2, hcap2, hbm2⟩ := remove_loop_encodes n
    { s with capture := some (encodeStr ((cs.drop p).take n)) } cs h1 p hpn
  dsimp only at hpos2 hcap2 hbm2
  have hgetD : ((remove_chars s (p : Int) (n : Int)).1.capture.getD [])
      = encodeStr ((cs.drop p).take n) := by
    rw [hrc, hcap2]
    rfl
  have ht : remove_then_reinsert s (p : Int) (n : Int)
      = (insert_loop
          (remove_loop
            { s with capture := some (encodeStr ((cs.drop p).take n)) }
            (p : Int) n).1
          (p : Int) (encodeStr ((cs.drop p).take n))
          (encodeStr ((cs.drop p).take n)).length).1 := by
    simp only [remove_then_reinsert, insert_chars]
    rw [hgetD, hrc]
  have hple : p ≤ (cs.take p ++ cs.drop (p + n)).length := by
    simp only [List.length_append, List.length_take, List.length_drop]
    omega
  have hv : ∀ c ∈ (cs.drop p).take n, 0 < c ∧ c < 0x10000 := by
    intro c hc
    exact h.2.2.2.2.2.2 c (List.mem_of_mem_drop (List.mem_of_mem_take hc))
  have hsplit := take_slice_drop cs p n
  have hde : (encodeStr (cs.take p)).length
      + (encodeStr ((cs.drop p).take n)).length
      + (encodeStr (cs.drop (p + n))).length = (encodeStr cs).length := by
    conv_rhs => rw [← hsplit]
    rw [encodeStr_append, encodeStr_append, List.length_append,
      List.length_append]
  have hlen2 : (remove_loop
        { s with capture := some (encodeStr ((cs.drop p).take n)) }
        (p : Int) n).1.len
      = (encodeStr (cs.take p ++ cs.drop (p + n))).length := h2.2.1
  have hlen2e : (encodeStr (cs.take p ++ cs.drop (p + n))).length
      = (encodeStr (cs.take p)).length
        + (encodeStr (cs.drop (p + n))).length := by
    rw [encodeStr_append, List.length_append]
  have hroom : (remove_loop
        { s with capture := some (encodeStr ((cs.drop p).take n)) }
        (p : Int) n).1.len
      + (encodeStr ((cs.drop p).take n)).length + 1
      < (remove_loop
          { s with capture := some (encodeStr ((cs.drop p).take n)) }
          (p : Int) n).1.bufmax := by
    have hsl : s.len = (encodeStr cs).length := h.2.1
    have hsb : s.len + 2 ≤ s.bufmax := h.2.2.2.2.1
    rw [hlen2, hbm2]
    omega
  obtain ⟨h3, hpos3, -, -⟩ := insert_loop_encodes ((cs.drop p).take n)
    (remove_loop
      { s with capture := some (encodeStr ((cs.drop p).take n)) }
      (p : Int) n).1
    (cs.take p ++ cs.drop (p + n)) h2 p hple hv
    (encodeStr ((cs.drop p).take n)).length (le_refl _) hroom
  have hlt : (cs.take p).length = p := by
    rw [List.length_take]
    exact Nat.min_eq_left hp
  have hcstake : (cs.take p ++ cs.drop (p + n)).take p = cs.take p := by
    rw [List.take_append_of_le_length (by omega), List.take_take,
      Nat.min_self]
  have hcsdrop : (cs.take p ++ cs.drop (p + n)).drop p = cs.drop (p + n) :=
    List.drop_left' hlt
  rw [hcstake, hcsdrop, hsplit] at h3
  rw [ht]
  refine ⟨?_, ?_, ?_, ?_⟩
  · rw [h3.1, h.1]
  · rw [h3.2.1, h.2.1]
  · rw [h3.2.2.1, h.2.2.1]
  · have hslen : ((cs.drop p).take n).length = n := by
      rw [List.length_take, List.length_drop]
      omega
    rw [hpos3, hpos2, hslen]
    split_ifs <;> omega

/-- The state of claim C3's witness: a line holding "abcd" with the
cursor after the third character. -/
def C3wit : Current :=
  { buf := [97, 98, 99, 100, 0, 0, 0, 0, 0, 0], bufmax := 10, len := 4,
    chars := 4, pos := 3, cols := 80, prompt := [], capture := none }

/-- C3, witness: removing the window `[1, 3)` of "abcd" (the characters
"bc", with the cursor at 3, past the window) and reinserting the capture
restores the line. -/
theorem C3_remove_insert_roundtrip_witness :
    Encodes C3wit [97, 98, 99, 100] ∧
    ((remove_then_reinsert C3wit ((1 : Nat) : Int)
        ((2 : Nat) : Int)).buf.take
        (remove_then_reinsert C3wit ((1 : Nat) : Int)
          ((2 : Nat) : Int)).len
      = C3wit.buf.take C3wit.len ∧
    (remove_then_reinsert C3wit ((1 : Nat) : Int) ((2 : Nat) : Int)).len
      = C3wit.len ∧
    (remove_then_reinsert C3wit ((1 : Nat) : Int) ((2 : Nat) : Int)).chars
      = C3wit.chars ∧
    (remove_then_reinsert C3wit ((1 : Nat) : Int) ((2 : Nat) : Int)).pos
      = C3wit.pos) :=
  ⟨by decide, C3_remove_insert_roundtrip C3wit [97, 98, 99, 100] (by decide)
    1 2 (by decide) (by decide) (Or.inr (by decide))⟩



/-- `errno` value set by the CTRL-C branch (src/linenoise.c:1571-1573);
`EAGAIN` is 11 on Linux. -/
def EAGAIN : Int := 11

/-- The mutable state of an edit session: the line editor state, the
global history store, and `errno`. -/
structure Edit where
  cur : Current
  hist : HistoryState
  errno : Int
deriving Repr, DecidableEq

/-- Result of processing one decoded input character in the
`linenoiseEdit` loop. -/
inductive StepRes where
  | cont (e : Edit)
  | done (e : Edit) (ret : Int)
  | stuck
deriving Repr, DecidableEq

/-- `history_len--; free(history[history_len])` (src/linenoise.c:1566,
1583): drop the last history slot. -/
def popLast (h : HistoryState) : HistoryState :=
  { h with history := h.history.dropLast }

/-- The first CTRL-W loop (src/linenoise.c:1604): step left over
spaces.  Fuel bounds the iteration count by the starting position. -/
def eatSpacesLeft (s : Current) : Nat → Nat → Nat
  | p, 0 => p
  | p, fuel + 1 =>
    if 0 < p ∧ get_char s ((p : Int) - 1) = 32 then eatSpacesLeft s (p - 1) fuel
    else p

/-- The second CTRL-W loop (src/linenoise.c:1609): step left over
non-spaces. -/
def eatNonSpacesLeft (s : Current) : Nat → Nat → Nat
  | p, 0 => p
  | p, fuel + 1 =>
    if 0 < p ∧ get_char s ((p : Int) - 1) ≠ 32 then
      eatNonSpacesLeft s (p - 1) fuel
    else p

/-- The dispatch of the `linenoiseEdit` switch (src/linenoise.c:1562)
on the decoded character delivered by `fd_read` (`-1` for a read error,
including a poll woken by the interrupt pipe).  The keys whose handlers
re-enter the terminal or history (TAB completion — the callback is set
in src/sh.c:152 —, ESC sequences, CTRL-R search, CTRL-P/CTRL-N
navigation, CTRL-V literal insert) and the `SPECIAL_*` codes (below
`-1`, produced only by `check_special`) are out of the model and map to
`.unmodelled`. -/
inductive KeyAction where
  | ret
  | enter
  | ctrlC
  | backspace
  | ctrlD
  | ctrlW
  | ctrlT
  | left
  | right
  | home
  | endKey
  | ctrlU
  | ctrlK
  | ctrlY
  | ctrlL
  | insert (c : Int)
  | ignore
  | unmodelled
deriving Repr, DecidableEq

def editKey (c : Int) : KeyAction :=
  if c = -1 then .ret
  else if c = 9 then .unmodelled
  else if c = 27 then .unmodelled
  else if c = 10 ∨ c = 13 then .enter
  else if c = 3 then .ctrlC
  else if c = 127 ∨ c = 8 then .backspace
  else if c = 4 then .ctrlD
  else if c = 23 then .ctrlW
  else if c = 18 then .unmodelled
  else if c = 16 ∨ c = 14 then .unmodelled
  else if c = 20 then .ctrlT
  else if c = 22 then .unmodelled
  else if c = 2 then .left
  else if c = 6 then .right
  else if c = 1 then .home
  else if c = 5 then .endKey
  else if c = 21 then .ctrlU
  else if c = 11 then .ctrlK
  else if c = 25 then .ctrlY
  else if c = 12 then .ctrlL
  else if 32 ≤ c then .insert c
  else if 0 ≤ c then .ignore
  else .unmodelled

/-- One iteration of the `linenoiseEdit` character loop
(src/linenoise.c:1536-1852): the handler for each key of `editKey`. -/
def editStep (e : Edit) (c : Int) : StepRes :=
  match editKey c with
  | .ret => .done e e.cur.len
  | .enter => .done { e with hist := popLast e.hist } e.cur.len
  | .ctrlC => .done { e with errno := EAGAIN } (-1)
  | .backspace =>
    .cont { e with cur := (remove_char e.cur ((e.cur.pos : Int) - 1)).1 }
  | .ctrlD =>
    if e.cur.len = 0 then .done { e with hist := popLast e.hist } (-1)
    else .cont { e with cur := (remove_char e.cur (e.cur.pos : Int)).1 }
  | .ctrlW =>
    let p0 := eatSpacesLeft e.cur e.cur.pos e.cur.pos
    let p1 := eatNonSpacesLeft e.cur p0 p0
    .cont { e with cur :=
      (remove_chars e.cur (p1 : Int) ((e.cur.pos : Int) - (p1 : Int))).1 }
  | .ctrlT =>
    if 0 < e.cur.pos ∧ e.cur.pos ≤ e.cur.chars then
      let fixer : Nat := if e.cur.pos = e.cur.chars then 1 else 0
      let ch := get_char e.cur ((e.cur.pos : Int) - (fixer : Int))
      let s1 := (remove_char e.cur ((e.cur.pos : Int) - (fixer : Int))).1
      .cont { e with cur := (insert_char s1 ((s1.pos : Int) - 1) ch.toNat).1 }
    else .cont e
  | .left =>
    .cont { e with cur :=
      if 0 < e.cur.pos then { e.cur with pos := e.cur.pos - 1 } else e.cur }
  | .right =>
    .cont { e with cur :=
      if e.cur.pos < e.cur.chars then { e.cur with pos := e.cur.pos + 1 }
      else e.cur }
  | .home => .cont { e with cur := { e.cur with pos := 0 } }
  | .endKey => .cont { e with cur := { e.cur with pos := e.cur.chars } }
  | .ctrlU => .cont { e with cur := (remove_chars e.cur 0 (e.cur.pos : Int)).1 }
  | .ctrlK =>
    .cont { e with cur :=
      (remove_chars e.cur (e.cur.pos : Int)
        ((e.cur.chars : Int) - (e.cur.pos : Int))).1 }
  | .ctrlY =>
    .cont { e with cur :=
      match e.cur.capture with
      | some cap => (insert_chars e.cur (e.cur.pos : Int) cap).1
      | none => e.cur }
  | .ctrlL => .cont { e with cur := { e.cur with cols := 0 } }
  | .insert ch =>
    .cont { e with cur := (insert_char e.cur (e.cur.pos : Int) ch.toNat).1 }
  | .ignore => .cont e
  | .unmodelled => .stuck

/-- The `while(1)` loop of `linenoiseEdit` run over a finite script of
decoded characters; `none` when the script ends without terminating the
session or reaches an unmodelled key. -/
def editRun : Edit → List Int → Option (Edit × Int)
  | _, [] => none
  | e, c :: rest =>
    match editStep e c with
    | .cont e2 => editRun e2 rest
    | .done e2 r => some (e2, r)
    | .stuck => none

/-- The `struct current` as initialised by `linenoise`
(src/linenoise.c:1888-1894): a zeroed LINENOISE_MAX_LINE = 4096 byte
buffer.  `cols` is read from the terminal; its value does not affect
the outcomes modelled here. -/
def emptyCurrentP (prompt : List Nat) : Current :=
  { buf := List.replicate 4096 0, bufmax := 4096, len := 0, chars := 0,
    pos := 0, cols := 80, prompt := prompt, capture := none }

/-- `linenoiseEdit` (src/linenoise.c:1526): push the transient ""
placeholder history entry, start from the empty line, then process
characters. -/
def linenoiseEdit (prompt : List Nat) (hist : HistoryState) (errno0 : Int)
    (events : List Int) : Option (Edit × Int) :=
  editRun
    { cur := emptyCurrentP prompt, hist := (linenoiseHistoryAdd hist []).1,
      errno := errno0 } events

/-- What `linenoise` returns to its caller. -/
inductive Outcome where
  | line (s : List Nat) (errno : Int)
  | nullRet (errno : Int)
deriving Repr, DecidableEq

/-- `strdup(buf)` (src/linenoise.c:1908): the bytes up to the first
NUL. -/
def strdupModel (buf : List Nat) : List Nat := buf.takeWhile (· ≠ 0)

/-- `linenoise` (src/linenoise.c:1869) in raw mode: set `errno = 0`,
run the edit loop, return NULL when it yields -1 and a copy of the
buffer otherwise, together with the resulting history store. -/
def linenoise (prompt : List Nat) (hist : HistoryState) (events : List Int) :
    Option (Outcome × HistoryState) :=
  match linenoiseEdit prompt hist 0 events with
  | none => none
  | some (e, count) =>
    if count = -1 then some (.nullRet e.errno, e.hist)
    else some (.line (strdupModel e.cur.buf) e.errno, e.hist)

/-- The loop in `spawn_oshean` (src/sh.c:155-164): on a NULL return it
stops unless `errno == EAGAIN`, in which case it re-prompts. -/
def sh_loop_continues (o : Outcome) : Bool :=
  match o with
  | .nullRet er => decide (er = EAGAIN)
  | .line _ _ => true



theorem editKey_ret (c : Int) (h : editKey c = .ret) : c = -1 := by
  unfold editKey at h
  by_cases h1 : c = -1
  · exact h1
  rw [if_neg h1] at h
  by_cases h2 : c = 9
  · rw [if_pos h2] at h
    exact KeyAction.noConfusion h
  rw [if_neg h2] at h
  by_cases h3 : c = 27
  · rw [if_pos h3] at h
    exact KeyAction.noConfusion h
  rw [if_neg h3] at h
  by_cases h4 : c = 10 ∨ c = 13
  · rw [if_pos h4] at h
    exact KeyAction.noConfusion h
  rw [if_neg h4] at h
  by_cases h5 : c = 3
  · rw [if_pos h5] at h
    exact KeyAction.noConfusion h
  rw [if_neg h5] at h
  by_cases h6 : c = 127 ∨ c = 8
  · rw [if_pos h6] at h
    exact KeyAction.noConfusion h
  rw [if_neg h6] at h
  by_cases h7 : c = 4
  · rw [if_pos h7] at h
    exact KeyAction.noConfusion h
  rw [if_neg h7] at h
  by_cases h8 : c = 23
  · rw [if_pos h8] at h
    exact KeyAction.noConfusion h
  rw [if_neg h8] at h
  by_cases h9 : c = 18
  · rw [if_pos h9] at h
    exact KeyAction.noConfusion h
  rw [if_neg h9] at h
  by_cases h10 : c = 16 ∨ c = 14
  · rw [if_pos h10] at h
    exact KeyAction.noConfusion h
  rw [if_neg h10] at h
  by_cases h11 : c = 20
  · rw [if_pos h11] at h
    exact KeyAction.noConfusion h
  rw [if_neg h11] at h
  by_cases h12 : c = 22
  · rw [if_pos h12] at h
    exact KeyAction.noConfusion h
  rw [if_neg h12] at h
  by_cases h13 : c = 2
  · rw [if_pos h13] at h
    exact KeyAction.noConfusion h
  rw [if_neg h13] at h
  by_cases h14 : c = 6
  · rw [if_pos h14] at h
    exact KeyAction.noConfusion h
  rw [if_neg h14] at h
  by_cases h15 : c = 1
  · rw [if_pos h15] at h
    exact KeyAction.noConfusion h
  rw [if_neg h15] at h
  by_cases h16 : c = 5
  · rw [if_pos h16] at h
    exact KeyAction.noConfusion h
  rw [if_neg h16] at h
  by_cases h17 : c = 21
  · rw [if_pos h17] at h
    exact KeyAction.noConfusion h
  rw [if_neg h17] at h
  by_cases h18 : c = 11
  · rw [if_pos h18] at h
    exact KeyAction.noConfusion h
  rw [if_neg h18] at h
  by_cases h19 : c = 25
  · rw [if_pos h19] at h
    exact KeyAction.noConfusion h
  rw [if_neg h19] at h
  by_cases h20 : c = 12
  · rw [if_pos h20] at h
    exact KeyAction.noConfusion h
  rw [if_neg h20] at h
  by_cases h21 : 32 ≤ c
  · rw [if_pos h21] at h
    exact KeyAction.noConfusion h
  rw [if_neg h21] at h
  by_cases h22 : 0 ≤ c
  · rw [if_pos h22] at h
    exact KeyAction.noConfusion h
  rw [if_neg h22] at h
  exact KeyAction.noConfusion h

theorem editKey_ctrlC (c : Int) (h : editKey c = .ctrlC) : c = 3 := by
  unfold editKey at h
  by_cases h1 : c = -1
  · rw [if_pos h1] at h
    exact KeyAction.noConfusion h
  rw [if_neg h1] at h
  by_cases h2 : c = 9
  · rw [if_pos h2] at h
    exact KeyAction.noConfusion h
  rw [if_neg h2] at h
  by_cases h3 : c = 27
  · rw [if_pos h3] at h
    exact KeyAction.noConfusion h
  rw [if_neg h3] at h
  by_cases h4 : c = 10 ∨ c = 13
  · rw [if_pos h4] at h
    exact KeyAction.noConfusion h
  rw [if_neg h4] at h
  by_cases h5 : c = 3
  · exact h5
  rw [if_neg h5] at h
  by_cases h6 : c = 127 ∨ c = 8
  · rw [if_pos h6] at h
    exact KeyAction.noConfusion h
  rw [if_neg h6] at h
  by_cases h7 : c = 4
  · rw [if_pos h7] at h
    exact KeyAction.noConfusion h
  rw [if_neg h7] at h
  by_cases h8 : c = 23
  · rw [if_pos h8] at h
    exact KeyAction.noConfusion h
  rw [if_neg h8] at h
  by_cases h9 : c = 18
  · rw [if_pos h9] at h
    exact KeyAction.noConfusion h
  rw [if_neg h9] at h
  by_cases h10 : c = 16 ∨ c = 14
  · rw [if_pos h10] at h
    exact KeyAction.noConfusion h
  rw [if_neg h10] at h
  by_cases h11 : c = 20
  · rw [if_pos h11] at h
    exact KeyAction.noConfusion h
  rw [if_neg h11] at h
  by_cases h12 : c = 22
  · rw [if_pos h12] at h
    exact KeyAction.noConfusion h
  rw [if_neg h12] at h
  by_cases h13 : c = 2
  · rw [if_pos h13] at h
    exact KeyAction.noConfusion h
  rw [if_neg h13] at h
  by_cases h14 : c = 6
  · rw [if_pos h14] at h
    exact KeyAction.noConfusion h
  rw [if_neg h14] at h
  by_cases h15 : c = 1
  · rw [if_pos h15] at h
    exact KeyAction.noConfusion h
  rw [if_neg h15] at h
  by_cases h16 : c = 5
  · rw [if_pos h16] at h
    exact KeyAction.noConfusion h
  rw [if_neg h16] at h
  by_cases h17 : c = 21
  · rw [if_pos h17] at h
    exact KeyAction.noConfusion h
  rw [if_neg h17] at h
  by_cases h18 : c = 11
  · rw [if_pos h18] at h
    exact KeyAction.noConfusion h
  rw [if_neg h18] at h
  by_cases h19 : c = 25
  · rw [if_pos h19] at h
    exact KeyAction.noConfusion h
  rw [if_neg h19] at h
  by_cases h20 : c = 12
  · rw [if_pos h20] at h
    exact KeyAction.noConfusion h
  rw [if_neg h20] at h
  by_cases h21 : 32 ≤ c
  · rw [if_pos h21] at h
    exact KeyAction.noConfusion h
  rw [if_neg h21] at h
  by_cases h22 : 0 ≤ c
  · rw [if_pos h22] at h
    exact KeyAction.noConfusion h
  rw [if_neg h22] at h
  exact KeyAction.noConfusion h

theorem editStep_cont_hist (e : Edit) (c : Int) (e2 : Edit)
    (h : editStep e c = .cont e2) : e2.hist = e.hist ∧ e2.errno = e.errno := by
  unfold editStep at h
  cases hk : editKey c <;> simp only [hk] at h <;>
    first
      | (cases h; exact ⟨rfl, rfl⟩)
      | exact StepRes.noConfusion h
      | (split_ifs at h <;> (cases h; exact ⟨rfl, rfl⟩))

theorem editStep_done_hist (e : Edit) (c : Int) (e2 : Edit) (r : Int)
    (h : editStep e c = .done e2 r) (hc3 : c ≠ 3) (hcm : c ≠ -1) :
    e2.hist = popLast e.hist ∧ e2.errno = e.errno := by
  unfold editStep at h
  cases hk : editKey c <;> simp only [hk] at h <;>
    first
      | exact absurd (editKey_ret c hk) hcm
      | exact absurd (editKey_ctrlC c hk) hc3
      | exact StepRes.noConfusion h
      | (cases h; exact ⟨rfl, rfl⟩)
      | (split_ifs at h <;> (cases h; exact ⟨rfl, rfl⟩))

theorem editRun_hist (events : List Int) :
    ∀ (e e2 : Edit) (r : Int),
    (∀ c ∈ events, c ≠ 3 ∧ c ≠ -1) →
    editRun e events = some (e2, r) →
    e2.hist = popLast e.hist ∧ e2.errno = e.errno := by
  induction events with
  | nil =>
    intro e e2 r _ h
    simp [editRun] at h
  | cons c rest ih =>
    intro e e2 r hev h
    have hc := hev c (List.mem_cons_self c rest)
    cases hs : editStep e c with
    | cont e3 =>
      simp only [editRun, hs] at h
      obtain ⟨h1, h2⟩ := editStep_cont_hist e c e3 hs
      obtain ⟨h3, h4⟩ := ih e3 e2 r
        (fun x hx => hev x (List.mem_cons_of_mem c hx)) h
      rw [h3, h4, h1, h2]
      exact ⟨rfl, rfl⟩
    | done e3 r2 =>
      simp only [editRun, hs, Option.some.injEq, Prod.mk.injEq] at h
      obtain ⟨rfl, rfl⟩ := h
      exact editStep_done_hist e c e3 r2 hs hc.1 hc.2
    | stuck =>
      simp only [editRun, hs] at h
      exact Option.noConfusion h

/-- C6, counterexample: with history ["a", ""] the placeholder push at
session entry is silently deduplicated against the existing trailing ""
entry (`linenoiseHistoryAdd` returns false, src/linenoise.c:1929-1933),
but the Enter handler still pops the last slot unconditionally
(src/linenoise.c:1565-1567), so pressing Enter immediately deletes the
genuine "" entry: the history after the session differs from the
history before it. -/
theorem C6_placeholder_counterexample :
    linenoise [] ⟨10, [[97], []]⟩ [13] = some (.line [] 0, ⟨10, [[97]]⟩) ∧
    ([[97]] : List (List Nat)) ≠ [[97], []] := by
  decide

/-- C6, amended: the transient placeholder round trip does preserve the
history across a session, provided the placeholder is actually pushed
and actually popped: the store must have spare capacity
(`history_len < history_max_len`, else the push evicts the oldest
entry), a nonzero capacity, and a last entry different from "" (else
the push is deduplicated away while Enter still pops); and the session
must not end through CTRL-C or a read error / cancellation (those
return without popping).  Under those hypotheses any modelled session
leaves the history store exactly as it was. -/
theorem C6_transient_history_slot (prompt : List Nat) (hist : HistoryState)
    (events : List Int) (o : Outcome) (h2 : HistoryState)
    (h0 : 0 < hist.history_max_len)
    (hnf : hist.history.length < hist.history_max_len)
    (hne : hist.history.getLast? ≠ some [])
    (hev : ∀ c ∈ events, c ≠ 3 ∧ c ≠ -1)
    (hrun : linenoise prompt hist events = some (o, h2)) :
    h2 = hist := by
  have hadd : (linenoiseHistoryAdd hist []).1
      = { hist with history := hist.history ++ [[]] } := by
    simp only [linenoiseHistoryAdd]
    rw [if_neg (by omega : ¬hist.history_max_len = 0), if_neg hne,
      if_neg (by omega : ¬hist.history.length = hist.history_max_len)]
  unfold linenoise at hrun
  cases hE : linenoiseEdit prompt hist 0 events with
  | none =>
    rw [hE] at hrun
    exact Option.noConfusion hrun
  | some p =>
    obtain ⟨e, count⟩ := p
    rw [hE] at hrun
    dsimp only at hrun
    unfold linenoiseEdit at hE
    obtain ⟨hh, -⟩ := editRun_hist events _ e count hev hE
    have hh2 : h2 = e.hist := by
      split_ifs at hrun <;>
        (rw [Option.some_inj] at hrun; exact (congrArg Prod.snd hrun).symm)
    rw [hh2, hh]
    dsimp only
    rw [hadd]
    unfold popLast
    have hdl : ((hist.history ++ [[]]).dropLast : List (List Nat))
        = hist.history := by simp
    rw [hdl]

/-- C6, witness: a one-entry store ⟨3, ["a"]⟩ and the one-key session
[Enter] satisfy the hypotheses, and the history is restored. -/
theorem C6_transient_history_slot_witness :
    (0 < 3 ∧ 1 < 3 ∧
      ([[97]] : List (List Nat)).getLast? ≠ some [] ∧
      linenoise [] ⟨3, [[97]]⟩ [13] = some (.line [] 0, ⟨3, [[97]]⟩)) ∧
    (⟨3, [[97]]⟩ : HistoryState) = ⟨3, [[97]]⟩ :=
  ⟨by decide,
    C6_transient_history_slot [] ⟨3, [[97]]⟩ [13] (.line [] 0) ⟨3, [[97]]⟩
      (by decide) (by decide) (by decide) (by decide) (by decide)⟩

/-- C7, counterexample: the claimed key sequence — the five characters
of "hello", ONE backspace, "p", Enter — leaves "hellp", not "help":
backspace removes only the final "o", and "p" is appended after the
remaining four characters. -/
theorem C7_scenario_counterexample :
    linenoise [62, 32] ⟨100, []⟩ [104, 101, 108, 108, 111, 127, 112, 13]
      = some (.line [104, 101, 108, 108, 112] 0, ⟨100, []⟩) ∧
    ([104, 101, 108, 108, 112] : List Nat) ≠ [104, 101, 108, 112] := by
  decide

/-- C7, amended: typing "hello", pressing Backspace twice, typing "p"
and pressing Enter yields the accepted-line outcome "help" (and the
claimed sequence with a single Backspace yields "hellp"). -/
theorem C7_accepted_line_scenario :
    linenoise [62, 32] ⟨100, []⟩
        [104, 101, 108, 108, 111, 127, 127, 112, 13]
      = some (.line [104, 101, 108, 112] 0, ⟨100, []⟩) := by
  decide

/-- C8: from the empty line, CTRL-D terminates the session returning
NULL with `errno` still 0 (end of input; the placeholder history slot
is popped, src/linenoise.c:1579-1588) while CTRL-C terminates it
returning NULL with `errno = EAGAIN` (src/linenoise.c:1571-1573; the
slot is not popped); the two outcomes differ and the caller's test
`errno != EAGAIN` (src/sh.c:161) distinguishes them. -/
theorem C8_eof_vs_interrupt (prompt : List Nat) (hist : HistoryState) :
    linenoise prompt hist [4]
      = some (.nullRet 0, popLast (linenoiseHistoryAdd hist []).1) ∧
    linenoise prompt hist [3]
      = some (.nullRet EAGAIN, (linenoiseHistoryAdd hist []).1) ∧
    sh_loop_continues (.nullRet 0) = false ∧
    sh_loop_continues (.nullRet EAGAIN) = true ∧
    (Outcome.nullRet 0) ≠ (.nullRet EAGAIN) :=
  ⟨rfl, rfl, by decide, by decide, by decide⟩

/-- C9, counterexample: a read returning -1 (which is what a signalled
cancellation produces, via the interrupt pipe in `fd_read_char`,
src/linenoise.c:405-432) makes `linenoiseEdit` return `current->len`
(src/linenoise.c:1556), a non-negative count, so `linenoise` returns
the partial buffer "ab" as an ACCEPTED line with `errno` untouched —
not an Interrupted outcome (NULL) of any kind. -/
theorem C9_cancel_counterexample :
    linenoise [] ⟨10, []⟩ [97, 98, -1]
      = some (.line [97, 98] 0, ⟨10, [[]]⟩) ∧
    ∀ er, (Outcome.line [97, 98] 0) ≠ .nullRet er :=
  ⟨by decide, fun _ h => Outcome.noConfusion h⟩

/-- C9, amended: signalling cancellation does make the blocked read
return -1 without a keypress (the poll in `fd_read_char` watches the
interrupt pipe written by `linenoiseCancel`), and the edit loop then
terminates immediately — but with the current length as its return
value, so the caller receives the partial line as if it had been
accepted (with the placeholder history entry left behind), not an
Interrupted outcome. -/
theorem C9_cancel_returns_partial_line :
    (∀ e : Edit, editStep e (-1) = .done e e.cur.len) ∧
    linenoise [] ⟨10, []⟩ [104, 105, -1]
      = some (.line [104, 105] 0, ⟨10, [[]]⟩) :=
  ⟨fun _ => rfl, by decide⟩



/-- The state machine of `countColorControlChars` (src/linenoise.c:483):
state 0 scans for ESC, state 1 expects `[`, state 2 consumes digits and
semicolons until `m` (adding `len` columns) or any other byte. -/
def cccLoop : List Nat → Nat → Nat → Nat → Nat
  | [], _, _, found => found
  | ch :: rest, state, len, found =>
    if ch = 0 then found
    else if state = 0 then cccLoop rest (if ch = 27 then 1 else 0) len found
    else if state = 1 then
      if ch = 91 then cccLoop rest 2 3 found
      else cccLoop rest 0 len found
    else
      if ch = 59 ∨ (48 ≤ ch ∧ ch ≤ 57) then cccLoop rest 2 (len + 1) found
      else if ch = 109 then cccLoop rest 0 len (found + len)
      else cccLoop rest 0 len found

def countColorControlChars (prompt : List Nat) : Nat :=
  cccLoop prompt 0 0 0

/-- The per-character scan of `refreshLine`'s first loop
(src/linenoise.c:1130-1136): walk `j` UTF-8 characters of `buf`
starting at byte offset `off`, returning the final byte offset and the
number of control characters (code points below 0x20) seen. -/
def ctrlScan (buf : List Nat) : Nat → Nat → Nat × Nat
  | 0, off => (off, 0)
  | j + 1, off =>
    let d := utf8_tounicode (buf.drop off)
    let r := ctrlScan buf j (off + d.1)
    (r.1, (if d.2 < 32 then 1 else 0) + r.2)

/-- The front-trimming loop of `refreshLine` (src/linenoise.c:1146-1155):
while `n >= cols` and the cursor is not at the front, drop one character
from the front of the rendered view (two columns if it is a control
character).  One unit of fuel per possible iteration; the C loop
decrements `pos` each time, so `pos` fuel is exact. -/
def trimLoop (buf : List Nat) (cols : Nat) :
    Nat → Int → Nat → Nat → Nat → Int × Nat × Nat × Nat
  | 0, n, off, pos, chars => (n, off, pos, chars)
  | fuel + 1, n, off, pos, chars =>
    if (cols : Int) ≤ n ∧ 0 < pos then
      let d := utf8_tounicode (buf.drop off)
      trimLoop buf cols fuel (n - (if d.2 < 32 then 2 else 1)) (off + d.1)
        (pos - 1) (chars - 1)
    else (n, off, pos, chars)

/-- The output loop of `refreshLine` (src/linenoise.c:1166-1190):
emit characters of the (trimmed) view until `pchars + i + n` reaches
`cols`, counting emitted characters, emitted control characters (one
extra column each), and `backup` — the emitted control characters that
lie before the cursor. -/
def emitLoop (buf : List Nat) (cols : Nat) (pchars : Int) (pos : Nat) :
    Nat → Nat → Nat → Nat → Nat × Nat × Nat
  | 0, _, _, _ => (0, 0, 0)
  | fuel + 1, i, off, n =>
    let d := utf8_tounicode (buf.drop off)
    let n2 := if d.2 < 32 then n + 1 else n
    if (cols : Int) ≤ pchars + (i : Int) + (n2 : Int) then (0, 0, 0)
    else
      let r := emitLoop buf cols pchars pos fuel (i + 1) (off + d.1) n2
      (r.1 + 1, r.2.1 + (if d.2 < 32 then 1 else 0),
        r.2.2 + (if d.2 < 32 ∧ i < pos then 1 else 0))

/-- The observable geometry computed by one `refreshLine` call. -/
structure RefreshOut where
  pchars : Int
  n0 : Int
  off1 : Nat
  pos1 : Nat
  chars1 : Nat
  emitted : Nat
  ctrlEmitted : Nat
  backup : Nat
  outputCols : Int
  cursorCol : Int
deriving Repr, DecidableEq

/-- Prompt display width (src/linenoise.c:1114-1120): UTF-8 length of
the prompt minus the columns of embedded ANSI color sequences. -/
def rlPchars (prompt : List Nat) : Int :=
  (utf8_strlen prompt ((strlenM prompt : Nat) : Int) : Int)
    - (countColorControlChars prompt : Int)

/-- The column requirement `n` computed before the trim loop
(src/linenoise.c:1129-1144): prompt width plus character count plus one
extra per control character left of the cursor, plus one more if the
character at the cursor is a control character. -/
def rlN0 (prompt : List Nat) (s : Current) : Int :=
  rlPchars prompt + (utf8_strlen s.buf (s.len : Int) : Int)
    + ((ctrlScan s.buf s.pos 0).2 : Int)
    + (if s.pos < s.chars ∧ get_char s (s.pos : Int) < 32 then 1 else 0)

/-- The trim loop of `refreshLine` on the full state. -/
def rlTrim (prompt : List Nat) (s : Current) : Int × Nat × Nat × Nat :=
  trimLoop s.buf s.cols s.pos (rlN0 prompt s) 0 s.pos s.chars

/-- The emit loop of `refreshLine` on the trimmed view. -/
def rlEmit (prompt : List Nat) (s : Current) : Nat × Nat × Nat :=
  emitLoop s.buf s.cols (rlPchars prompt) (rlTrim prompt s).2.2.1
    (rlTrim prompt s).2.2.2 0 (rlTrim prompt s).2.1 0

/-- The pure part of `refreshLine` (src/linenoise.c:1096-1196): prompt
display width (ANSI color sequences discounted), the column requirement
`n` left of the cursor, the front trim, the bounded emit loop, the
total emitted columns `pchars` + characters + one extra per control
character, and the final cursor column `pos + pchars + backup`
(src/linenoise.c:1195). -/
def refreshLine (prompt : List Nat) (s : Current) : RefreshOut :=
  { pchars := rlPchars prompt, n0 := rlN0 prompt s,
    off1 := (rlTrim prompt s).2.1, pos1 := (rlTrim prompt s).2.2.1,
    chars1 := (rlTrim prompt s).2.2.2,
    emitted := (rlEmit prompt s).1, ctrlEmitted := (rlEmit prompt s).2.1,
    backup := (rlEmit prompt s).2.2,
    outputCols := rlPchars prompt + ((rlEmit prompt s).1 : Int)
      + ((rlEmit prompt s).2.1 : Int),
    cursorCol := ((rlTrim prompt s).2.2.1 : Int) + rlPchars prompt
      + ((rlEmit prompt s).2.2 : Int) }


theorem ctrlScan_add (buf : List Nat) (a : Nat) :
    ∀ (b off : Nat),
    (ctrlScan buf (a + b) off).1
      = (ctrlScan buf b (ctrlScan buf a off).1).1 ∧
    (ctrlScan buf (a + b) off).2
      = (ctrlScan buf a off).2 + (ctrlScan buf b (ctrlScan buf a off).1).2 := by
  induction a with
  | zero =>
    intro b off
    simp [ctrlScan]
  | succ a ih =>
    intro b off
    have hsucc : a + 1 + b = (a + b) + 1 := by omega
    rw [hsucc]
    simp only [ctrlScan]
    obtain ⟨h1, h2⟩ := ih b (off + (utf8_tounicode (buf.drop off)).1)
    exact ⟨h1, by rw [h2]; omega⟩

theorem ctrlScan_le (buf : List Nat) (a b off : Nat) (hab : a ≤ b) :
    (ctrlScan buf a off).2 ≤ (ctrlScan buf b off).2 := by
  obtain ⟨c, rfl⟩ := Nat.exists_eq_add_of_le hab
  have := (ctrlScan_add buf a c off).2
  omega

theorem emitLoop_cols (buf : List Nat) (cols : Nat) (pchars : Int)
    (pos : Nat) :
    ∀ (fuel : Nat), ∀ (i off n : Nat),
    pchars + (i : Int) + (n : Int) ≤ (cols : Int) →
    pchars + (i : Int) + ((emitLoop buf cols pchars pos fuel i off n).1 : Int)
        + (n : Int) + ((emitLoop buf cols pchars pos fuel i off n).2.1 : Int)
      ≤ (cols : Int) := by
  intro fuel
  induction fuel with
  | zero =>
    intro i off n h
    simp only [emitLoop]
    push_cast
    omega
  | succ fuel ih =>
    intro i off n h
    simp only [emitLoop]
    by_cases hbrk : (cols : Int) ≤ pchars + (i : Int)
        + (((if (utf8_tounicode (buf.drop off)).2 < 32 then n + 1 else n) : Nat) : Int)
    · rw [if_pos hbrk]
      push_cast
      omega
    · rw [if_neg hbrk]
      dsimp only
      have hrec := ih (i + 1) (off + (utf8_tounicode (buf.drop off)).1)
        (if (utf8_tounicode (buf.drop off)).2 < 32 then n + 1 else n)
        (by split_ifs at hbrk ⊢ <;> push_cast at hbrk ⊢ <;> omega)
      split_ifs at hrec ⊢ <;> push_cast at hrec ⊢ <;> omega

theorem emitLoop_backup_zero (buf : List Nat) (cols : Nat) (pchars : Int)
    (pos : Nat) :
    ∀ (fuel : Nat), ∀ (i off n : Nat), pos ≤ i →
    (emitLoop buf cols pchars pos fuel i off n).2.2 = 0 := by
  intro fuel
  induction fuel with
  | zero =>
    intro i off n _
    simp [emitLoop]
  | succ fuel ih =>
    intro i off n hpos
    simp only [emitLoop]
    by_cases hbrk : (cols : Int) ≤ pchars + (i : Int)
        + (((if (utf8_tounicode (buf.drop off)).2 < 32 then n + 1 else n) : Nat) : Int)
    · rw [if_pos hbrk]
    · rw [if_neg hbrk]
      dsimp only
      rw [ih (i + 1) _ _ (by omega),
        if_neg (by omega : ¬((utf8_tounicode (buf.drop off)).2 < 32 ∧ i < pos))]

theorem emitLoop_backup (buf : List Nat) (cols : Nat) (pchars : Int)
    (pos : Nat) (d : Nat) :
    ∀ (fuel i off n : Nat), pos = i + d → d ≤ fuel →
    (∀ j, j < d →
      pchars + ((i + j : Nat) : Int)
        + ((n + (ctrlScan buf (j + 1) off).2 : Nat) : Int) < (cols : Int)) →
    (emitLoop buf cols pchars pos fuel i off n).2.2
      = (ctrlScan buf d off).2 := by
  induction d with
  | zero =>
    intro fuel i off n hpos _ _
    rw [emitLoop_backup_zero buf cols pchars pos fuel i off n (by omega)]
    simp [ctrlScan]
  | succ d ih =>
    intro fuel i off n hpos hfuel hbound
    rcases fuel with _ | fuel
    · omega
    have hb0 := hbound 0 (by omega)
    have hscan1a : (ctrlScan buf 1 off).1
        = off + (utf8_tounicode (buf.drop off)).1 := by
      simp [ctrlScan]
    have hscan1b : (ctrlScan buf 1 off).2
        = (if (utf8_tounicode (buf.drop off)).2 < 32 then 1 else 0) := by
      simp [ctrlScan]
    have hn2 : (if (utf8_tounicode (buf.drop off)).2 < 32 then n + 1 else n)
        = n + (ctrlScan buf 1 off).2 := by
      rw [hscan1b]
      split_ifs <;> omega
    have hnobrk : ¬((cols : Int) ≤ pchars + (i : Int)
        + (((if (utf8_tounicode (buf.drop off)).2 < 32 then n + 1 else n) : Nat) : Int)) := by
      rw [hn2]
      push_cast at hb0 ⊢
      omega
    have hlt : i < pos := by omega
    have hbite : (if (utf8_tounicode (buf.drop off)).2 < 32 ∧ i < pos then 1 else 0)
        = (ctrlScan buf 1 off).2 := by
      rw [hscan1b]
      by_cases hc : (utf8_tounicode (buf.drop off)).2 < 32
      · rw [if_pos ⟨hc, hlt⟩, if_pos hc]
      · rw [if_neg (by tauto), if_neg hc]
    have hboundrec : ∀ j, j < d →
        pchars + ((i + 1 + j : Nat) : Int)
          + ((n + (ctrlScan buf 1 off).2
              + (ctrlScan buf (j + 1) (off + (utf8_tounicode (buf.drop off)).1)).2 : Nat) : Int)
        < (cols : Int) := by
      intro j hj
      have hbj := hbound (j + 1) (by omega)
      have hadd := (ctrlScan_add buf 1 (j + 1) off).2
      rw [hscan1a] at hadd
      have hjj : j + 1 + 1 = 1 + (j + 1) := by omega
      rw [hjj] at hbj
      push_cast at hbj ⊢
      omega
    have hrec := ih fuel (i + 1) (off + (utf8_tounicode (buf.drop off)).1)
      (n + (ctrlScan buf 1 off).2) (by omega) (by omega) hboundrec
    simp only [emitLoop]
    rw [if_neg hnobrk]
    dsimp only
    rw [hbite, hn2, hrec]
    have hsplit := (ctrlScan_add buf 1 d off).2
    rw [hscan1a] at hsplit
    have h1d : 1 + d = d + 1 := by omega
    rw [h1d] at hsplit
    omega

theorem trimLoop_nofit (buf : List Nat) (cols : Nat) (fuel : Nat) (n : Int)
    (off pos chars : Nat) (h : ¬((cols : Int) ≤ n)) :
    trimLoop buf cols fuel n off pos chars = (n, off, pos, chars) := by
  cases fuel with
  | zero => rfl
  | succ fuel =>
    simp only [trimLoop]
    rw [if_neg (by tauto)]

theorem trimLoop_spec (buf : List Nat) (cols : Nat) :
    ∀ (fuel : Nat) (n : Int) (off pos chars : Nat), pos ≤ fuel →
    ∃ k, k ≤ pos ∧
      trimLoop buf cols fuel n off pos chars
        = (n - (k : Int) - ((ctrlScan buf k off).2 : Int),
           (ctrlScan buf k off).1, pos - k, chars - k) ∧
      (pos - k = 0
        ∨ n - (k : Int) - ((ctrlScan buf k off).2 : Int) < (cols : Int)) := by
  intro fuel
  induction fuel with
  | zero =>
    intro n off pos chars hf
    refine ⟨0, by omega, ?_, ?_⟩
    · simp [trimLoop, ctrlScan]
    · left
      omega
  | succ fuel ih =>
    intro n off pos chars hf
    by_cases hcond : (cols : Int) ≤ n ∧ 0 < pos
    · obtain ⟨k, hk, heq, hexit⟩ := ih
        (n - (if (utf8_tounicode (buf.drop off)).2 < 32 then 2 else 1))
        (off + (utf8_tounicode (buf.drop off)).1) (pos - 1) (chars - 1)
        (by omega)
      have hc1 : (ctrlScan buf (k + 1) off).1
          = (ctrlScan buf k (off + (utf8_tounicode (buf.drop off)).1)).1 := by
        simp only [ctrlScan]
      have hc2 : ((ctrlScan buf (k + 1) off).2 : Int)
          = (if (utf8_tounicode (buf.drop off)).2 < 32 then (1 : Int) else 0)
            + ((ctrlScan buf k (off + (utf8_tounicode (buf.drop off)).1)).2 : Int) := by
        simp only [ctrlScan]
        split_ifs <;> push_cast <;> omega
      refine ⟨k + 1, by omega, ?_, ?_⟩
      · simp only [trimLoop]
        rw [if_pos hcond, heq]
        simp only [Prod.mk.injEq]
        refine ⟨?_, hc1.symm, by omega, by omega⟩
        rw [hc2]
        split_ifs <;> omega
      · rcases hexit with h0 | hlt
        · left
          omega
        · right
          rw [hc2]
          split_ifs at hlt ⊢ <;> omega
    · refine ⟨0, by omega, ?_, ?_⟩
      · simp only [trimLoop]
        rw [if_neg hcond]
        simp [ctrlScan]
      · rcases Decidable.not_and_iff_or_not.mp hcond with hn | hp
        · right
          push_neg at hn
          omega
        · left
          omega



/-- The state of claim C2's counterexample: a one-column terminal with
an empty line. -/
def C2cex : Current :=
  { buf := [0, 0, 0, 0], bufmax := 4, len := 0, chars := 0, pos := 0,
    cols := 1, prompt := [97, 98], capture := none }

/-- C2, counterexample: the claim quantifies over EVERY prompt and
terminal width, but the prompt is written unconditionally
(src/linenoise.c:1159) and the trim loop only makes room for the
buffer, so a prompt of display width 2 on a 1-column terminal emits 2
columns of output, exceeding the terminal width. -/
theorem C2_prompt_width_counterexample :
    (refreshLine [97, 98] C2cex).outputCols = 2 ∧
    (C2cex.cols : Int) = 1 ∧
    ¬((refreshLine [97, 98] C2cex).outputCols ≤ (C2cex.cols : Int)) := by
  decide

/-- C2, amended: if the prompt's display width is below the terminal
width, then (1) the emitted output never exceeds the terminal width;
(2) the rendered view is obtained by dropping some k ≤ pos characters
from the front of the (untouched) buffer: the trimmed cursor, character
count and starting byte offset correspond; (3) the cursor is placed at
column pchars + (characters of the view before the cursor) + (control
characters of the view before the cursor); and (4) if the pre-trim
requirement n fits, nothing is trimmed, so the cursor column is
pchars + pos + (control characters before the cursor), the claim's
formula. -/
theorem C2_refresh_amended (prompt : List Nat) (s : Current)
    (hsl : utf8_strlen s.buf (s.len : Int) = s.chars)
    (hpose : s.pos ≤ s.chars)
    (hfit : (refreshLine prompt s).pchars < (s.cols : Int)) :
    (refreshLine prompt s).outputCols ≤ (s.cols : Int) ∧
    (∃ k, k ≤ s.pos ∧
      (refreshLine prompt s).pos1 = s.pos - k ∧
      (refreshLine prompt s).chars1 = s.chars - k ∧
      (refreshLine prompt s).off1 = (ctrlScan s.buf k 0).1) ∧
    (refreshLine prompt s).cursorCol
      = (refreshLine prompt s).pchars + ((refreshLine prompt s).pos1 : Int)
        + ((ctrlScan s.buf (refreshLine prompt s).pos1
            (refreshLine prompt s).off1).2 : Int) ∧
    ((refreshLine prompt s).n0 < (s.cols : Int) →
      (refreshLine prompt s).pos1 = s.pos ∧
      (refreshLine prompt s).off1 = 0) := by
  simp only [refreshLine] at hfit ⊢
  obtain ⟨k, hk, heq, hexit⟩ :=
    trimLoop_spec s.buf s.cols s.pos (rlN0 prompt s) 0 s.pos s.chars
      (le_refl _)
  have htr : rlTrim prompt s
      = (rlN0 prompt s - (k : Int) - ((ctrlScan s.buf k 0).2 : Int),
         (ctrlScan s.buf k 0).1, s.pos - k, s.chars - k) := heq
  have hpos1 : (rlTrim prompt s).2.2.1 = s.pos - k := by rw [htr]
  have hchars1 : (rlTrim prompt s).2.2.2 = s.chars - k := by rw [htr]
  have hoff1 : (rlTrim prompt s).2.1 = (ctrlScan s.buf k 0).1 := by rw [htr]
  refine ⟨?_, ⟨k, hk, hpos1, hchars1, hoff1⟩, ?_, ?_⟩
  · have hw : rlPchars prompt + ((0 : Nat) : Int)
        + ((rlEmit prompt s).1 : Int) + ((0 : Nat) : Int)
        + ((rlEmit prompt s).2.1 : Int) ≤ (s.cols : Int) :=
      emitLoop_cols s.buf s.cols (rlPchars prompt) (rlTrim prompt s).2.2.1
        (rlTrim prompt s).2.2.2 0 (rlTrim prompt s).2.1 0
        (by push_cast; omega)
    push_cast at hw
    omega
  · rcases hexit with h0 | hltn
    · have hp0 : (rlTrim prompt s).2.2.1 = 0 := by
        rw [hpos1]
        omega
      have hb0 : (rlEmit prompt s).2.2 = 0 :=
        emitLoop_backup_zero s.buf s.cols (rlPchars prompt)
          (rlTrim prompt s).2.2.1 (rlTrim prompt s).2.2.2 0
          (rlTrim prompt s).2.1 0 (by omega)
      rw [hb0, hp0]
      simp [ctrlScan]
    · have hscansplit := (ctrlScan_add s.buf k (s.pos - k) 0).2
      have hkk : k + (s.pos - k) = s.pos := by omega
      rw [hkk] at hscansplit
      have hextra : (0 : Int)
          ≤ (if s.pos < s.chars ∧ get_char s (s.pos : Int) < 32
              then (1 : Int) else 0) := by
        split_ifs <;> omega
      have hn0e : rlN0 prompt s = rlPchars prompt + (s.chars : Int)
          + ((ctrlScan s.buf s.pos 0).2 : Int)
          + (if s.pos < s.chars ∧ get_char s (s.pos : Int) < 32
              then (1 : Int) else 0) := by
        unfold rlN0
        rw [hsl]
      have hbound : ∀ j, j < (rlTrim prompt s).2.2.1 →
          rlPchars prompt + ((0 + j : Nat) : Int)
            + ((0 + (ctrlScan s.buf (j + 1) (rlTrim prompt s).2.1).2 : Nat) : Int)
          < (s.cols : Int) := by
        intro j hj
        rw [hpos1] at hj
        rw [hoff1]
        have hmono := ctrlScan_le s.buf (j + 1) (s.pos - k)
          (ctrlScan s.buf k 0).1 (by omega)
        rw [hn0e] at hltn
        push_cast at hltn ⊢
        omega
      have hbk : (rlEmit prompt s).2.2
          = (ctrlScan s.buf (rlTrim prompt s).2.2.1 (rlTrim prompt s).2.1).2 :=
        emitLoop_backup s.buf s.cols (rlPchars prompt)
          (rlTrim prompt s).2.2.1 (rlTrim prompt s).2.2.1
          (rlTrim prompt s).2.2.2 0 (rlTrim prompt s).2.1 0
          (by omega) (by rw [hpos1, hchars1]; omega) hbound
      rw [hbk]
      omega
  · intro hlt
    have htr0 : rlTrim prompt s = (rlN0 prompt s, 0, s.pos, s.chars) :=
      trimLoop_nofit s.buf s.cols s.pos (rlN0 prompt s) 0 s.pos s.chars
        (by omega)
    exact ⟨by rw [htr0], by rw [htr0]⟩

/-- The state of claim C2's witness: the line "a", CTRL-B, "b" (a
control character in the middle) with the cursor after the control
character, prompt "> ", an 80-column terminal. -/
def C2wit : Current :=
  { buf := [97, 2, 98, 0, 0, 0, 0, 0], bufmax := 8, len := 3, chars := 3,
    pos := 2, cols := 80, prompt := [62, 32], capture := none }

/-- C2, witness: the amended theorem at the concrete state `C2wit`. -/
theorem C2_refresh_amended_witness :
    (utf8_strlen C2wit.buf (C2wit.len : Int) = C2wit.chars ∧
      C2wit.pos ≤ C2wit.chars ∧
      (refreshLine [62, 32] C2wit).pchars < (C2wit.cols : Int)) ∧
    ((refreshLine [62, 32] C2wit).outputCols ≤ (C2wit.cols : Int) ∧
      (∃ k, k ≤ C2wit.pos ∧
        (refreshLine [62, 32] C2wit).pos1 = C2wit.pos - k ∧
        (refreshLine [62, 32] C2wit).chars1 = C2wit.chars - k ∧
        (refreshLine [62, 32] C2wit).off1 = (ctrlScan C2wit.buf k 0).1) ∧
      (refreshLine [62, 32] C2wit).cursorCol
        = (refreshLine [62, 32] C2wit).pchars
          + ((refreshLine [62, 32] C2wit).pos1 : Int)
          + ((ctrlScan C2wit.buf (refreshLine [62, 32] C2wit).pos1
              (refreshLine [62, 32] C2wit).off1).2 : Int) ∧
      ((refreshLine [62, 32] C2wit).n0 < (C2wit.cols : Int) →
        (refreshLine [62, 32] C2wit).pos1 = C2wit.pos ∧
        (refreshLine [62, 32] C2wit).off1 = 0)) :=
  ⟨⟨by decide, by decide, by decide⟩,
    C2_refresh_amended [62, 32] C2wit (by decide) (by decide) (by decide)⟩


end Oshean
